import Mathlib

/-
Shallow embedding of the sliding-tile puzzle solver in `src/driver.py`.

Modelling conventions:
* A Python list of tile values becomes `List Nat`; all claims restrict
  attention to boards that are permutations of `0..WIDTH^2-1`.
* A Python string of move characters becomes `List Char` (the characters
  are 'U', 'D', 'L', 'R' exactly as in the source).
* Python integer floor division `//` becomes `Int.fdiv`; indices that can
  temporarily be negative (`hole - 1`, `hole - WIDTH`) are computed in `Int`
  exactly as Python computes them.
* Python sets of `Puzzle` states compare elements by `__eq__`, which the
  source overrides to compare boards only; the model therefore stores the
  full states in lists and performs every membership test on the `board`
  component.  Set insertion of an element equal to a present one keeps the
  original element, which the guarded insert below reproduces.
* Python dicts (the a_star / ida_star fringe) become association lists in
  insertion order; `dict` value overwrite keeps the original key object,
  which the update below reproduces.  The source runs under an
  implementation-defined dict iteration order; the model fixes insertion
  order, which `min(fringe, key=fringe.get)` then scans, keeping the first
  entry with the least score exactly as Python's `min` keeps the first
  minimum of its iteration order.
* Out-of-range Python list subscripts raise IndexError; the model's `getD`
  and `set` are total.  Every claim constrains inputs (via the generator
  and the permutation invariant) so that no such subscript occurs.
* Wall-clock timing, memory probing and file output are outside the model;
  of the `Stats` fields only `nodes_expanded` is claim-relevant and is kept,
  together with a ghost trace of popped boards used to state trace claims.
-/

namespace Driver

/-- Board values: index `i` holds the tile at cell `i`; `0` is the blank. -/
abbrev Board := List Nat

/-- Source: `Puzzle.HOLE = 0`. -/
def HOLE : Nat := 0

/-- Source: `Puzzle.WIDTH = 3`. -/
def WIDTH : Nat := 3

/-- Source: class `Puzzle` — board, blank index, and move history. -/
structure Puzzle where
  board : Board
  hole : Nat
  hist : List Char
deriving DecidableEq, Repr

/-- Source: `Puzzle.__init__(self, board, hole=None, hist=None)`.
`hole if hole else self.board.index(self.HOLE)`: both `None` and the falsy
integer `0` trigger the recomputation `board.index(0)`.
`hist if hist else ''` is the identity on strings (the falsy case is the
empty string, which maps to itself). -/
def pyPuzzle (board : Board) (hole : Option Nat) (hist : Option (List Char)) : Puzzle :=
  { board := board
    hist := match hist with
      | some h => h
      | none => []
    hole := match hole with
      | some n => if n = 0 then board.indexOf 0 else n
      | none => board.indexOf 0 }

/-- Source: `Puzzle.possible_moves`.  The two `for` loops over the pairs
`(hole - WIDTH, hole + WIDTH)` and `(hole - 1, hole + 1)` are unrolled; the
first element of each pair is labelled 'U' (resp. 'L') and the second 'D'
(resp. 'R'), exactly as the `dest == self.hole - ...` tests decide.
Arithmetic is in `Int` because Python lets `hole - WIDTH` and `hole - 1` go
negative, and `//` is floor division (`Int.fdiv`). -/
def Puzzle.possible_moves (p : Puzzle) : List (Nat × Char) :=
  let h : Int := (p.hole : Int)
  let w : Int := (WIDTH : Int)
  let n : Int := (p.board.length : Int)
  (if 0 ≤ h - w ∧ h - w < n then [((h - w).toNat, 'U')] else []) ++
  (if 0 ≤ h + w ∧ h + w < n then [((h + w).toNat, 'D')] else []) ++
  (if (h - 1).fdiv w = h.fdiv w then [((h - 1).toNat, 'L')] else []) ++
  (if (h + 1).fdiv w = h.fdiv w then [((h + 1).toNat, 'R')] else [])

/-- Source: `Puzzle.solved` — `self.board == [self.HOLE] + range(1, self.WIDTH ** 2)`. -/
def Puzzle.solved (p : Puzzle) : Bool :=
  p.board == HOLE :: List.range' 1 (WIDTH ^ 2 - 1)

/-- Source: `Puzzle.move(self, to, action)`.  The simultaneous assignment
`board[self.hole], board[to] = board[to], board[self.hole]` reads both
right-hand sides from the copied board before writing, which the two `set`s
below (both reading from `p.board`) reproduce.  The new state is built by
the constructor, so the falsy-`0` hole quirk of `pyPuzzle` applies.
The source's parameter `to` is a Lean keyword and is renamed `dst`. -/
def Puzzle.move (p : Puzzle) (dst : Nat) (action : Char) : Puzzle :=
  let board := (p.board.set p.hole (p.board.getD dst 0)).set dst (p.board.getD p.hole 0)
  pyPuzzle board (some dst) (some (p.hist ++ [action]))

/-- Source: `Solver.__init__` — `self.state = Puzzle(init_state)`. -/
def initState (b : Board) : Puzzle := pyPuzzle b none none

/-- Source: `itertools.combinations(board, 2)` — all value pairs
`(board[i], board[j])` with `i < j`, in board order. -/
def combinations2 : List Nat → List (Nat × Nat)
  | [] => []
  | x :: xs => (xs.map fun y => (x, y)) ++ combinations2 xs

/-- Source: `Solver.solvable` — counts pairs with `all([i, j]) and i > j`
(both values non-blank, earlier value larger) and returns whether the
count is even. -/
def solvable (board : Board) : Bool :=
  let inv := (combinations2 board).countP fun ij => decide (ij.1 ≠ 0 ∧ ij.2 ≠ 0 ∧ ij.2 < ij.1)
  inv % 2 == 0

/-- Source: `Heuristics.manhattan(state, width=None)` with the default
`width = state.WIDTH`.  The source locates each tile with
`state.board.index(tile)` (first occurrence) and sums the absolute row and
column differences to the goal cell `tile`. -/
def manhattan (state : Puzzle) : Int :=
  state.board.foldl (fun cost tile =>
    if tile ≠ state.board.indexOf tile ∧ tile ≠ 0 then
      let width : Int := (WIDTH : Int)
      let c_row : Int := ((state.board.indexOf tile : Int)).fdiv width
      let d_row : Int := ((tile : Int)).fdiv width
      let cost := if c_row ≠ d_row then cost + |c_row - d_row| else cost
      let c_col : Int := (state.board.indexOf tile : Int) - c_row * width
      let d_col : Int := (tile : Int) - d_row * width
      if c_col ≠ d_col then cost + |c_col - d_col| else cost
    else cost) 0

/-- Membership of a board in a Python set/list of states: the source's
`Puzzle.__eq__` compares boards only (and `__hash__` hashes the board), so
`x in s` tests whether some held state has the same board. -/
def memBoard (l : List Puzzle) (b : Board) : Bool :=
  l.any fun q => q.board == b

/-- Python `set.add`: adding an element equal (by board) to a present one
leaves the set unchanged, keeping the originally stored state. -/
def addState (l : List Puzzle) (p : Puzzle) : List Puzzle :=
  if memBoard l p.board then l else p :: l

/-- Python `set.remove(state)` / removal keyed by the popped state's board. -/
def removeState (l : List Puzzle) (b : Board) : List Puzzle :=
  l.eraseP fun q => q.board == b

/-- Result of one loop iteration of a search strategy: either the loop
continues with an updated configuration, or the strategy returns `r`
(`some history` on success, `none` on frontier exhaustion) leaving the
configuration `c` behind for the statistics. -/
inductive StepRes (σ ρ : Type) where
  | cont (c : σ)
  | done (r : ρ) (c : σ)
deriving Repr

/-- Configuration of `Solver.breath_first_search`: the FIFO `fringe`
(front at the head), the `explored` set, the mirror `fringe_set`, and the
claim-relevant statistic `nodes_expanded`.  `pops` is a ghost trace of the
boards popped from the fringe, used only to state trace properties; the
timing and high-water-mark statistics are omitted as no claim mentions
them. -/
structure BfsCfg where
  fringe : List Puzzle
  explored : List Puzzle
  fringe_set : List Puzzle
  nodes_expanded : Nat
  pops : List Board
deriving DecidableEq, Repr

/-- Source: `fringe = deque([self.state]); explored = {self.state};
fringe_set = {self.state}`. -/
def bfsInit (b : Board) : BfsCfg :=
  { fringe := [initState b], explored := [initState b], fringe_set := [initState b],
    nodes_expanded := 0, pops := [] }

/-- Source: the successor loop of `breath_first_search` — for each yielded
move, build `new_state` and append it to the fringe (and to `fringe_set`)
unless its board is already explored or already in `fringe_set`.  The
explored set used by the guard is the one from before `explored.add(state)`,
which in the source happens only after the loop. -/
def bfsExpand (state : Puzzle) (explored : List Puzzle) :
    List (Nat × Char) → List Puzzle → List Puzzle → List Puzzle × List Puzzle
  | [], fringe, fringe_set => (fringe, fringe_set)
  | (pos, action) :: moves, fringe, fringe_set =>
    let new_state := state.move pos action
    if ¬ memBoard explored new_state.board ∧ ¬ memBoard fringe_set new_state.board then
      bfsExpand state explored moves (fringe ++ [new_state]) (fringe_set ++ [new_state])
    else
      bfsExpand state explored moves fringe fringe_set

/-- One iteration of the `while fringe:` loop of `breath_first_search`:
pop the front state, drop it from `fringe_set`, return its history if it is
solved, otherwise expand it and finally add it to `explored`. -/
def bfsStep (c : BfsCfg) : StepRes BfsCfg (Option (List Char)) :=
  match c.fringe with
  | [] => .done none c
  | state :: fringe =>
    let fringe_set := removeState c.fringe_set state.board
    let pops := c.pops ++ [state.board]
    if state.solved then
      .done (some state.hist)
        { fringe := fringe, explored := c.explored, fringe_set := fringe_set,
          nodes_expanded := c.nodes_expanded, pops := pops }
    else
      let fr := bfsExpand state c.explored state.possible_moves fringe fringe_set
      .cont { fringe := fr.1, explored := addState c.explored state, fringe_set := fr.2,
              nodes_expanded := c.nodes_expanded + 1, pops := pops }

/-- Fuel-indexed iteration of `bfsStep`; `none` means the fuel ran out
before the loop finished. -/
def bfsRun : Nat → BfsCfg → Option (Option (List Char) × BfsCfg)
  | 0, _ => none
  | fuel + 1, c =>
    match bfsStep c with
    | .done r c2 => some (r, c2)
    | .cont c2 => bfsRun fuel c2

/-- Configuration of `Solver.depth_first_search`.  The Python list used as
a LIFO stack (append/pop at the end) is modelled with its top at the head
of `fringe`. -/
structure DfsCfg where
  fringe : List Puzzle
  explored : List Puzzle
  fringe_set : List Puzzle
  nodes_expanded : Nat
  pops : List Board
deriving DecidableEq, Repr

/-- Source: `fringe = [self.state]; explored = {self.state};
fringe_set = {self.state}`. -/
def dfsInit (b : Board) : DfsCfg :=
  { fringe := [initState b], explored := [initState b], fringe_set := [initState b],
    nodes_expanded := 0, pops := [] }

/-- Source: the successor loop of `depth_first_search`, which iterates
`reversed(list(state.possible_moves))` and pushes on the stack top (here:
conses at the head).  Its guard tests the explored set that already
contains the popped state (`explored.add(state)` runs before the loop). -/
def dfsExpand (state : Puzzle) (explored : List Puzzle) :
    List (Nat × Char) → List Puzzle → List Puzzle → List Puzzle × List Puzzle
  | [], fringe, fringe_set => (fringe, fringe_set)
  | (pos, action) :: moves, fringe, fringe_set =>
    let new_state := state.move pos action
    if ¬ memBoard explored new_state.board ∧ ¬ memBoard fringe_set new_state.board then
      dfsExpand state explored moves (new_state :: fringe) (fringe_set ++ [new_state])
    else
      dfsExpand state explored moves fringe fringe_set

/-- One iteration of the `while fringe:` loop of `depth_first_search`:
pop the top state, drop it from `fringe_set`, add it to `explored` (before
the solved check, unlike BFS), return on solved, otherwise push the
successors in reverse generator order. -/
def dfsStep (c : DfsCfg) : StepRes DfsCfg (Option (List Char)) :=
  match c.fringe with
  | [] => .done none c
  | state :: fringe =>
    let fringe_set := removeState c.fringe_set state.board
    let explored := addState c.explored state
    let pops := c.pops ++ [state.board]
    if state.solved then
      .done (some state.hist)
        { fringe := fringe, explored := explored, fringe_set := fringe_set,
          nodes_expanded := c.nodes_expanded, pops := pops }
    else
      let fr := dfsExpand state explored state.possible_moves.reverse fringe fringe_set
      .cont { fringe := fr.1, explored := explored, fringe_set := fr.2,
              nodes_expanded := c.nodes_expanded + 1, pops := pops }

/-- Fuel-indexed iteration of `dfsStep`. -/
def dfsRun : Nat → DfsCfg → Option (Option (List Char) × DfsCfg)
  | 0, _ => none
  | fuel + 1, c =>
    match dfsStep c with
    | .done r c2 => some (r, c2)
    | .cont c2 => dfsRun fuel c2

/-- Configuration of `Solver.a_star` (and the shared accumulators of
`Solver.ida_star`): the fringe dict as an association list in insertion
order, and the explored set. -/
structure AstarCfg where
  fringe : List (Puzzle × Int)
  explored : List Puzzle
  nodes_expanded : Nat
  pops : List Board
deriving DecidableEq, Repr

/-- Source: `fringe = {self.state: heuristic(self.state)};
explored = {self.state}` — note the root's score has no `+ 1`. -/
def astarInit (b : Board) : AstarCfg :=
  { fringe := [(initState b, manhattan (initState b))], explored := [initState b],
    nodes_expanded := 0, pops := [] }

/-- Source: `min(fringe, key=fringe.get)` — the first key of the iteration
order whose score is minimal (Python's `min` keeps the earliest minimum). -/
def selectMin : List (Puzzle × Int) → Option (Puzzle × Int)
  | [] => none
  | e :: es =>
    match selectMin es with
    | none => some e
    | some m => if e.2 ≤ m.2 then some e else some m

/-- Source: `fringe[new_state] = score` on the dict — overwrite the value
if a key with the same board is present (the dict keeps the original key
object), else add a new entry. -/
def dictInsert (fringe : List (Puzzle × Int)) (k : Puzzle) (v : Int) : List (Puzzle × Int) :=
  if fringe.any (fun e => e.1.board == k.board) then
    fringe.map fun e => if e.1.board == k.board then (e.1, v) else e
  else fringe ++ [(k, v)]

/-- Source: `fringe.pop(state)` on the dict — remove the entry keyed by the
popped state's board. -/
def dictPop (fringe : List (Puzzle × Int)) (b : Board) : List (Puzzle × Int) :=
  fringe.eraseP fun e => e.1.board == b

/-- Source: the successor loop shared by `a_star` and `ida_star`'s inner
loop — every successor whose board is not explored is written into the
fringe dict with score `heuristic(new_state) + 1` (the comment in the
source reads `# 1 is g(n)`). -/
def astarExpand (state : Puzzle) (explored : List Puzzle) :
    List (Nat × Char) → List (Puzzle × Int) → List (Puzzle × Int)
  | [], fringe => fringe
  | (pos, action) :: moves, fringe =>
    let new_state := state.move pos action
    if ¬ memBoard explored new_state.board then
      astarExpand state explored moves (dictInsert fringe new_state (manhattan new_state + 1))
    else
      astarExpand state explored moves fringe

/-- One iteration of the `while fringe:` loop of `a_star`: select the
minimum-scored entry, pop it, add it to `explored` (before the solved
check), return on solved, otherwise expand. -/
def astarStep (c : AstarCfg) : StepRes AstarCfg (Option (List Char)) :=
  match selectMin c.fringe with
  | none => .done none c
  | some e =>
    let state := e.1
    let fringe := dictPop c.fringe state.board
    let explored := addState c.explored state
    let pops := c.pops ++ [state.board]
    if state.solved then
      .done (some state.hist)
        { fringe := fringe, explored := explored,
          nodes_expanded := c.nodes_expanded, pops := pops }
    else
      .cont { fringe := astarExpand state explored state.possible_moves fringe,
              explored := explored, nodes_expanded := c.nodes_expanded + 1, pops := pops }

/-- Fuel-indexed iteration of `astarStep`. -/
def astarRun : Nat → AstarCfg → Option (Option (List Char) × AstarCfg)
  | 0, _ => none
  | fuel + 1, c =>
    match astarStep c with
    | .done r c2 => some (r, c2)
    | .cont c2 => astarRun fuel c2

/-- One iteration of `ida_star`'s inner `_ida_star` loop.  The recursive
call `return _ida_star(limit + 1)` shares (and does not reset) the fringe
and explored accumulators, so it is exactly a continuation of the same
loop with `limit + 1`; every other branch coincides with `astarStep`. -/
def idaStep (c : AstarCfg) (limit : Nat) : StepRes (AstarCfg × Nat) (Option (List Char)) :=
  match selectMin c.fringe with
  | none => .done none (c, limit)
  | some e =>
    let state := e.1
    if state.hist.length > limit then
      .cont (c, limit + 1)
    else
      let fringe := dictPop c.fringe state.board
      let explored := addState c.explored state
      let pops := c.pops ++ [state.board]
      if state.solved then
        .done (some state.hist)
          ({ fringe := fringe, explored := explored,
             nodes_expanded := c.nodes_expanded, pops := pops }, limit)
      else
        .cont ({ fringe := astarExpand state explored state.possible_moves fringe,
                 explored := explored, nodes_expanded := c.nodes_expanded + 1,
                 pops := pops }, limit)

/-- Fuel-indexed iteration of `idaStep`; `ida_star` itself starts it with
`limit = 0` on the same initial configuration as `a_star`.  The final
depth limit is internal to the strategy and is dropped from the result. -/
def idaRun : Nat → AstarCfg → Nat → Option (Option (List Char) × AstarCfg)
  | 0, _, _ => none
  | fuel + 1, c, limit =>
    match idaStep c limit with
    | .done r c2 => some (r, c2.1)
    | .cont c2 => idaRun fuel c2.1 c2.2

/-! ### Specification-side notions used by the claims -/

/-- Number of inversions of a flattened board in the spec's sense: unordered
pairs of non-blank values in which the larger value appears earlier. -/
def inversionCount : List Nat → Nat
  | [] => 0
  | x :: xs => xs.countP (fun y => decide (x ≠ 0 ∧ y ≠ 0 ∧ y < x)) + inversionCount xs

/-- The goal board `[0, 1, ..., WIDTH^2-1]`. -/
def goalBoard : Board := List.range (WIDTH ^ 2)

/-! ### Helper lemmas -/

lemma solvable_countP (b : List Nat) :
    (combinations2 b).countP (fun ij => decide (ij.1 ≠ 0 ∧ ij.2 ≠ 0 ∧ ij.2 < ij.1)) =
      inversionCount b := by
  induction b with
  | nil => rfl
  | cons x xs ih =>
    simp only [combinations2, inversionCount, List.countP_append, List.countP_map, ih,
      Nat.add_comm]
    rfl

/-- The move generator, re-expressed with natural-number row/column
conditions: up needs a full row above, down a full row below, and the
horizontal moves need the hole not to sit in the leftmost (resp. rightmost)
column — the `Int` floor-division tests of the source reduce to these for a
hole inside a 3x3 board. -/
lemma possible_moves_eq (p : Puzzle) (hlen : p.board.length = 9) (hhole : p.hole < 9) :
    p.possible_moves =
      (if 3 ≤ p.hole then [(p.hole - 3, 'U')] else []) ++
      (if p.hole + 3 < 9 then [(p.hole + 3, 'D')] else []) ++
      (if p.hole % 3 ≠ 0 then [(p.hole - 1, 'L')] else []) ++
      (if p.hole % 3 ≠ 2 then [(p.hole + 1, 'R')] else []) := by
  obtain ⟨board, hole, hist⟩ := p
  simp only [Puzzle.possible_moves] at *
  rw [hlen]
  interval_cases hole <;> decide

/-- The board produced by `Puzzle.move`: the entries at `i` (the hole) and
`j` (the destination) swapped, written exactly as the two `set`s of the
model of the simultaneous assignment. -/
def swapIdx (l : List Nat) (i j : Nat) : List Nat :=
  (l.set i (l.getD j 0)).set j (l.getD i 0)

lemma move_board (p : Puzzle) (dst : Nat) (a : Char) :
    (p.move dst a).board = swapIdx p.board p.hole dst := rfl

lemma move_hist (p : Puzzle) (dst : Nat) (a : Char) :
    (p.move dst a).hist = p.hist ++ [a] := rfl

lemma swapIdx_length (l : List Nat) (i j : Nat) :
    (swapIdx l i j).length = l.length := by
  simp [swapIdx]

lemma getElem?_eq_some_getD (l : List Nat) {i : Nat} (hi : i < l.length) :
    l[i]? = some (l.getD i 0) := by
  rw [List.getElem?_eq_getElem hi, List.getD_eq_getElem?_getD, List.getElem?_eq_getElem hi]
  rfl

lemma swapIdx_get? (l : List Nat) {i j : Nat} (n : Nat)
    (hi : i < l.length) (hj : j < l.length) (hij : i ≠ j) :
    (swapIdx l i j).get? n =
      if n = i then l.get? j else if n = j then l.get? i else l.get? n := by
  simp only [swapIdx, List.get?_eq_getElem?]
  rw [List.getElem?_set, List.getElem?_set, List.length_set]
  by_cases h2 : j = n
  · subst h2
    rw [if_pos rfl, if_pos hj, if_neg (Ne.symm hij), if_pos rfl,
      getElem?_eq_some_getD l hi]
  · rw [if_neg h2]
    by_cases h1 : i = n
    · subst h1
      rw [if_pos rfl, if_pos hi, if_pos rfl, getElem?_eq_some_getD l hj]
    · rw [if_neg h1, if_neg (fun h => h1 h.symm), if_neg (fun h => h2 h.symm)]

lemma cons_set_perm : ∀ (t : List Nat) (k : Nat) (h : Nat), k < t.length →
    ((t.getD k 0) :: t.set k h).Perm (h :: t)
  | [], k, _, hk => absurd hk (by simp)
  | y :: t, 0, h, _ => by
    simpa using List.Perm.swap h y t
  | y :: t, k + 1, h, hk => by
    have ih := cons_set_perm t k h (by simpa using hk)
    have e1 : ((y :: t).getD (k + 1) 0 :: (y :: t).set (k + 1) h)
        = t.getD k 0 :: y :: t.set k h := by simp
    rw [e1]
    exact ((List.Perm.swap y (t.getD k 0) (t.set k h)).trans (ih.cons y)).trans
      (List.Perm.swap h y t)

lemma swapIdx_perm : ∀ (l : List Nat) (i j : Nat), i < l.length → j < l.length →
    (swapIdx l i j).Perm l
  | [], _, _, hi, _ => absurd hi (by simp)
  | x :: t, 0, 0, _, _ => by
    simp [swapIdx]
  | x :: t, 0, k + 1, _, hj => by
    have hk : k < t.length := by simpa using hj
    have : swapIdx (x :: t) 0 (k + 1) = t.getD k 0 :: t.set k x := by
      simp [swapIdx]
    rw [this]
    exact cons_set_perm t k x hk
  | x :: t, m + 1, 0, hi, _ => by
    have hm : m < t.length := by simpa using hi
    have : swapIdx (x :: t) (m + 1) 0 = t.getD m 0 :: t.set m x := by
      simp [swapIdx]
    rw [this]
    exact cons_set_perm t m x hm
  | x :: t, m + 1, k + 1, hi, hj => by
    have hm : m < t.length := by simpa using hi
    have hk : k < t.length := by simpa using hj
    have : swapIdx (x :: t) (m + 1) (k + 1) = x :: swapIdx t m k := by
      simp [swapIdx]
    rw [this]
    exact (swapIdx_perm t m k hm hk).cons x

lemma swapIdx_swapIdx (l : List Nat) {i j : Nat}
    (hi : i < l.length) (hj : j < l.length) (hij : i ≠ j) :
    swapIdx (swapIdx l i j) j i = l := by
  have hl : (swapIdx l i j).length = l.length := swapIdx_length l i j
  apply List.ext_get?
  intro n
  rw [swapIdx_get? _ n (hl ▸ hj) (hl ▸ hi) (Ne.symm hij)]
  by_cases h1 : n = j
  · subst h1
    rw [if_pos rfl, swapIdx_get? _ i hi hj hij, if_pos rfl]
  · rw [if_neg h1]
    by_cases h2 : n = i
    · subst h2
      rw [if_pos rfl, swapIdx_get? _ j hi hj hij, if_neg (Ne.symm hij), if_pos rfl]
    · rw [if_neg h2, swapIdx_get? _ n hi hj hij, if_neg h2, if_neg h1]

lemma indexOf_eq_of_get? : ∀ {l : List Nat} {a : Nat} {i : Nat}, l.get? i = some a →
    (∀ j, j < i → l.get? j ≠ some a) → l.indexOf a = i
  | [], a, i, h, _ => by simp at h
  | x :: t, a, 0, h, _ => by
    rw [List.get?_cons_zero] at h
    injection h with h
    subst h
    exact List.indexOf_cons_self x t
  | x :: t, a, i + 1, h, hfirst => by
    have hx : x ≠ a := by
      intro hxa
      exact hfirst 0 (Nat.succ_pos i) (by rw [List.get?_cons_zero, hxa])
    rw [List.get?_cons_succ] at h
    have hrest : ∀ j, j < i → t.get? j ≠ some a := by
      intro j hj hget
      exact hfirst (j + 1) (by omega) (by rw [List.get?_cons_succ]; exact hget)
    have ih := indexOf_eq_of_get? h hrest
    rw [List.indexOf_cons]
    have hba : (x == a) = false := beq_eq_false_iff_ne.mpr hx
    rw [hba]
    simp [ih]

/-- The inverse of a move label: Up and Down swapped, Left and Right
swapped. -/
def inverseAction : Char → Char
  | 'U' => 'D'
  | 'D' => 'U'
  | 'L' => 'R'
  | 'R' => 'L'
  | c => c

lemma possible_moves_cases {p : Puzzle} {dst : Nat} {a : Char}
    (hlen : p.board.length = 9) (hhole : p.hole < 9)
    (hmem : (dst, a) ∈ p.possible_moves) :
    (a = 'U' ∧ 3 ≤ p.hole ∧ dst = p.hole - 3) ∨
    (a = 'D' ∧ p.hole + 3 < 9 ∧ dst = p.hole + 3) ∨
    (a = 'L' ∧ p.hole % 3 ≠ 0 ∧ dst = p.hole - 1) ∨
    (a = 'R' ∧ p.hole % 3 ≠ 2 ∧ dst = p.hole + 1) := by
  rw [possible_moves_eq p hlen hhole] at hmem
  simp only [List.mem_append] at hmem
  rcases hmem with ((h | h) | h) | h
  · split_ifs at h with hc
    · simp only [List.mem_singleton, Prod.mk.injEq] at h
      exact Or.inl ⟨h.2, hc, h.1⟩
    · simp at h
  · split_ifs at h with hc
    · simp only [List.mem_singleton, Prod.mk.injEq] at h
      exact Or.inr (Or.inl ⟨h.2, hc, h.1⟩)
    · simp at h
  · split_ifs at h with hc
    · simp only [List.mem_singleton, Prod.mk.injEq] at h
      exact Or.inr (Or.inr (Or.inl ⟨h.2, hc, h.1⟩))
    · simp at h
  · split_ifs at h with hc
    · simp only [List.mem_singleton, Prod.mk.injEq] at h
      exact Or.inr (Or.inr (Or.inr ⟨h.2, hc, h.1⟩))
    · simp at h

lemma possible_moves_dst {p : Puzzle} {dst : Nat} {a : Char}
    (hlen : p.board.length = 9) (hhole : p.hole < 9)
    (hmem : (dst, a) ∈ p.possible_moves) :
    dst < 9 ∧ dst ≠ p.hole := by
  rcases possible_moves_cases hlen hhole hmem with
    ⟨_, h1, h2⟩ | ⟨_, h1, h2⟩ | ⟨_, h1, h2⟩ | ⟨_, h1, h2⟩ <;> omega

lemma move_hole_eq (p : Puzzle) (dst : Nat) (a : Char)
    (hlen : p.board.length = 9) (hhole : p.hole < 9)
    (hzero : p.board.get? p.hole = some 0)
    (hdlt : dst < 9) (hdne : dst ≠ p.hole) :
    (p.move dst a).hole = dst := by
  by_cases h0 : dst = 0
  · subst h0
    have hrfl : (p.move 0 a).hole = (swapIdx p.board p.hole 0).indexOf 0 := rfl
    rw [hrfl]
    have hget : (swapIdx p.board p.hole 0).get? 0 = some 0 := by
      rw [swapIdx_get? p.board 0 (by rw [hlen]; exact hhole) (by rw [hlen]; omega)
        (fun h => hdne h.symm)]
      rw [if_neg hdne, if_pos rfl]
      exact hzero
    exact indexOf_eq_of_get? hget (fun j hj => absurd hj (Nat.not_lt_zero j))
  · simp [Puzzle.move, pyPuzzle, h0]

/-- One a_star loop body after the pop and the explored insertion, before
the solved test: shorthand for the configuration the strategy leaves when
it returns a solution. -/
def astarPopped (c : AstarCfg) (s : Puzzle × Int) : AstarCfg :=
  { fringe := dictPop c.fringe s.1.board, explored := addState c.explored s.1,
    nodes_expanded := c.nodes_expanded, pops := c.pops ++ [s.1.board] }

/-- The configuration after a full (non-returning) a_star loop iteration
that popped `s`. -/
def astarExpanded (c : AstarCfg) (s : Puzzle × Int) : AstarCfg :=
  { fringe := astarExpand s.1 (addState c.explored s.1) s.1.possible_moves
      (dictPop c.fringe s.1.board),
    explored := addState c.explored s.1, nodes_expanded := c.nodes_expanded + 1,
    pops := c.pops ++ [s.1.board] }

/-- One a_star step of the loop, viewed as a relation between
configurations. -/
def AstarStepRel (c c2 : AstarCfg) : Prop := astarStep c = .cont c2

/-- Configurations reachable by the a_star loop. -/
def astarReaches (c c2 : AstarCfg) : Prop := Relation.ReflTransGen AstarStepRel c c2

/-- The property claimed of the a_star frontier: every entry ever present —
including the root — carries the score `manhattan + 1`. -/
def AllFringeScoresPlusOne (root : Board) : Prop :=
  ∀ c, astarReaches (astarInit root) c → ∀ e ∈ c.fringe, e.2 = manhattan e.1 + 1

/-- The scores actually carried by an a_star frontier: `manhattan + 1` for
every entry, except that the root entry may carry its initial score
`manhattan` without the `+ 1`. -/
def FringeScoresOk (root : Board) (c : AstarCfg) : Prop :=
  ∀ e ∈ c.fringe, e.2 = manhattan e.1 + 1 ∨
    (e.1 = initState root ∧ e.2 = manhattan (initState root))

lemma selectMin_mem : ∀ {fringe : List (Puzzle × Int)} {e : Puzzle × Int},
    selectMin fringe = some e → e ∈ fringe
  | [], _, h => by simp [selectMin] at h
  | f :: fs, e, h => by
    rw [selectMin] at h
    rcases hm : selectMin fs with _ | m
    · rw [hm] at h
      dsimp only at h
      injection h with h
      exact h ▸ List.mem_cons_self f fs
    · rw [hm] at h
      dsimp only at h
      split_ifs at h with hle
      · injection h with h
        exact h ▸ List.mem_cons_self f fs
      · injection h with h
        exact List.mem_cons_of_mem f (h ▸ selectMin_mem hm)

lemma selectMin_eq_none : ∀ {fringe : List (Puzzle × Int)},
    selectMin fringe = none → fringe = []
  | [], _ => rfl
  | f :: fs, h => by
    rw [selectMin] at h
    rcases hm : selectMin fs with _ | m <;> rw [hm] at h <;> dsimp only at h
    · exact absurd h (by simp)
    · split_ifs at h

lemma selectMin_le : ∀ {fringe : List (Puzzle × Int)} {e : Puzzle × Int},
    selectMin fringe = some e → ∀ f ∈ fringe, e.2 ≤ f.2
  | [], _, h => by simp [selectMin] at h
  | f :: fs, e, h => by
    intro g hg
    rw [selectMin] at h
    rcases hm : selectMin fs with _ | m <;> rw [hm] at h <;> dsimp only at h
    · have hnil : fs = [] := selectMin_eq_none hm
      subst hnil
      injection h with h
      subst h
      rcases List.mem_cons.mp hg with rfl | hg
      · exact le_refl _
      · simp at hg
    · split_ifs at h with hle
      · injection h with h
        subst h
        rcases List.mem_cons.mp hg with rfl | hg
        · exact le_refl _
        · exact le_trans hle (selectMin_le hm g hg)
      · injection h with h
        subst h
        rcases List.mem_cons.mp hg with rfl | hg
        · exact le_of_not_le hle
        · exact selectMin_le hm g hg

lemma manhattan_congr {p q : Puzzle} (h : p.board = q.board) :
    manhattan p = manhattan q := by
  unfold manhattan
  rw [h]

lemma dictInsert_mem {fringe : List (Puzzle × Int)} {k : Puzzle} {v : Int}
    {e : Puzzle × Int} (he : e ∈ dictInsert fringe k v) :
    e ∈ fringe ∨ (e.1.board = k.board ∧ e.2 = v) := by
  unfold dictInsert at he
  split_ifs at he with hp
  · rcases List.mem_map.mp he with ⟨f, hf, hfe⟩
    by_cases hb : f.1.board = k.board
    · simp only [hb, beq_self_eq_true, if_true] at hfe
      right
      rw [← hfe]
      exact ⟨hb, rfl⟩
    · simp only [beq_eq_false_iff_ne.mpr hb, Bool.false_eq_true, if_false] at hfe
      exact Or.inl (hfe ▸ hf)
  · rcases List.mem_append.mp he with hf | hf
    · exact Or.inl hf
    · right
      rw [List.mem_singleton.mp hf]
      exact ⟨rfl, rfl⟩

lemma astarExpand_scores (state : Puzzle) (explored : List Puzzle) :
    ∀ (moves : List (Nat × Char)) (fringe : List (Puzzle × Int)) (e : Puzzle × Int),
      e ∈ astarExpand state explored moves fringe →
      e ∈ fringe ∨ e.2 = manhattan e.1 + 1
  | [], _, _, he => Or.inl he
  | (pos, action) :: moves, fringe, e, he => by
    rw [astarExpand] at he
    by_cases hg : ¬ memBoard explored (state.move pos action).board = true
    · rw [if_pos hg] at he
      rcases astarExpand_scores state explored moves _ e he with hin | hs
      · rcases dictInsert_mem hin with hin | ⟨hb, hv⟩
        · exact Or.inl hin
        · right
          rw [hv, manhattan_congr hb]
      · exact Or.inr hs
    · rw [if_neg hg] at he
      exact astarExpand_scores state explored moves fringe e he

lemma astarStep_eq_cont {c c2 : AstarCfg} (h : astarStep c = .cont c2) :
    ∃ s, selectMin c.fringe = some s ∧ s.1.solved = false ∧ c2 = astarExpanded c s := by
  unfold astarStep at h
  rcases hsel : selectMin c.fringe with _ | s <;> rw [hsel] at h <;> dsimp only at h
  · exact StepRes.noConfusion h
  · by_cases hsolved : s.1.solved = true
    · rw [if_pos hsolved] at h
      exact StepRes.noConfusion h
    · rw [if_neg hsolved] at h
      refine ⟨s, rfl, by simpa using hsolved, ?_⟩
      injection h with h1
      exact h1.symm

lemma astarStep_eq_done {c : AstarCfg} {r : Option (List Char)} {c2 : AstarCfg}
    (h : astarStep c = .done r c2) :
    (selectMin c.fringe = none ∧ r = none ∧ c2 = c) ∨
    (∃ s, selectMin c.fringe = some s ∧ s.1.solved = true ∧
      r = some s.1.hist ∧ c2 = astarPopped c s) := by
  unfold astarStep at h
  rcases hsel : selectMin c.fringe with _ | s <;> rw [hsel] at h <;> dsimp only at h
  · injection h with h1 h2
    exact Or.inl ⟨rfl, h1.symm, h2.symm⟩
  · by_cases hsolved : s.1.solved = true
    · rw [if_pos hsolved] at h
      injection h with h1 h2
      exact Or.inr ⟨s, rfl, hsolved, h1.symm, h2.symm⟩
    · rw [if_neg hsolved] at h
      exact StepRes.noConfusion h

lemma astarStep_scores {root : Board} {c c2 : AstarCfg} (h : astarStep c = .cont c2)
    (hok : FringeScoresOk root c) : FringeScoresOk root c2 := by
  rcases astarStep_eq_cont h with ⟨s, hsel, hns, rfl⟩
  intro e he
  rcases astarExpand_scores _ _ _ _ e he with hin | hs
  · exact hok e ((List.eraseP_sublist _).subset hin)
  · exact Or.inl hs

lemma bfsStep_eq_cont {c c' : BfsCfg} (h : bfsStep c = .cont c') :
    ∃ state fringe, c.fringe = state :: fringe ∧ state.solved = false ∧
      c' = { fringe := (bfsExpand state c.explored state.possible_moves fringe
                (removeState c.fringe_set state.board)).1,
             explored := addState c.explored state,
             fringe_set := (bfsExpand state c.explored state.possible_moves fringe
                (removeState c.fringe_set state.board)).2,
             nodes_expanded := c.nodes_expanded + 1,
             pops := c.pops ++ [state.board] } := by
  unfold bfsStep at h
  rcases hf : c.fringe with _ | ⟨state, fringe⟩ <;> rw [hf] at h <;> dsimp only at h
  · exact StepRes.noConfusion h
  · by_cases hs : state.solved = true
    · rw [if_pos hs] at h
      exact StepRes.noConfusion h
    · rw [if_neg hs] at h
      injection h with h1
      exact ⟨state, fringe, rfl, by simpa using hs, h1.symm⟩

lemma bfsStep_eq_done {c : BfsCfg} {r : Option (List Char)} {c' : BfsCfg}
    (h : bfsStep c = .done r c') :
    (c.fringe = [] ∧ r = none ∧ c' = c) ∨
    (∃ state fringe, c.fringe = state :: fringe ∧ state.solved = true ∧
      r = some state.hist ∧
      c' = { fringe := fringe, explored := c.explored,
             fringe_set := removeState c.fringe_set state.board,
             nodes_expanded := c.nodes_expanded, pops := c.pops ++ [state.board] }) := by
  unfold bfsStep at h
  rcases hf : c.fringe with _ | ⟨state, fringe⟩ <;> rw [hf] at h <;> dsimp only at h
  · injection h with h1 h2
    exact Or.inl ⟨rfl, h1.symm, h2.symm⟩
  · by_cases hs : state.solved = true
    · rw [if_pos hs] at h
      injection h with h1 h2
      exact Or.inr ⟨state, fringe, rfl, hs, h1.symm, h2.symm⟩
    · rw [if_neg hs] at h
      exact StepRes.noConfusion h

lemma dfsStep_eq_cont {c c' : DfsCfg} (h : dfsStep c = .cont c') :
    ∃ state fringe, c.fringe = state :: fringe ∧ state.solved = false ∧
      c' = { fringe := (dfsExpand state (addState c.explored state)
                state.possible_moves.reverse fringe (removeState c.fringe_set state.board)).1,
             explored := addState c.explored state,
             fringe_set := (dfsExpand state (addState c.explored state)
                state.possible_moves.reverse fringe (removeState c.fringe_set state.board)).2,
             nodes_expanded := c.nodes_expanded + 1,
             pops := c.pops ++ [state.board] } := by
  unfold dfsStep at h
  rcases hf : c.fringe with _ | ⟨state, fringe⟩ <;> rw [hf] at h <;> dsimp only at h
  · exact StepRes.noConfusion h
  · by_cases hs : state.solved = true
    · rw [if_pos hs] at h
      exact StepRes.noConfusion h
    · rw [if_neg hs] at h
      injection h with h1
      exact ⟨state, fringe, rfl, by simpa using hs, h1.symm⟩

lemma dfsStep_eq_done {c : DfsCfg} {r : Option (List Char)} {c' : DfsCfg}
    (h : dfsStep c = .done r c') :
    (c.fringe = [] ∧ r = none ∧ c' = c) ∨
    (∃ state fringe, c.fringe = state :: fringe ∧ state.solved = true ∧
      r = some state.hist ∧
      c' = { fringe := fringe, explored := addState c.explored state,
             fringe_set := removeState c.fringe_set state.board,
             nodes_expanded := c.nodes_expanded, pops := c.pops ++ [state.board] }) := by
  unfold dfsStep at h
  rcases hf : c.fringe with _ | ⟨state, fringe⟩ <;> rw [hf] at h <;> dsimp only at h
  · injection h with h1 h2
    exact Or.inl ⟨rfl, h1.symm, h2.symm⟩
  · by_cases hs : state.solved = true
    · rw [if_pos hs] at h
      injection h with h1 h2
      exact Or.inr ⟨state, fringe, rfl, hs, h1.symm, h2.symm⟩
    · rw [if_neg hs] at h
      exact StepRes.noConfusion h

lemma idaStep_eq_cont {c : AstarCfg} {limit : Nat} {p : AstarCfg × Nat}
    (h : idaStep c limit = .cont p) :
    (∃ s, selectMin c.fringe = some s ∧ limit < s.1.hist.length ∧ p = (c, limit + 1)) ∨
    (∃ s, selectMin c.fringe = some s ∧ s.1.hist.length ≤ limit ∧ s.1.solved = false ∧
      p = (astarExpanded c s, limit)) := by
  unfold idaStep at h
  rcases hsel : selectMin c.fringe with _ | s <;> rw [hsel] at h <;> dsimp only at h
  · exact StepRes.noConfusion h
  · by_cases hlen : s.1.hist.length > limit
    · rw [if_pos hlen] at h
      injection h with h1
      exact Or.inl ⟨s, rfl, hlen, h1.symm⟩
    · rw [if_neg hlen] at h
      by_cases hs : s.1.solved = true
      · rw [if_pos hs] at h
        exact StepRes.noConfusion h
      · rw [if_neg hs] at h
        injection h with h1
        exact Or.inr ⟨s, rfl, by omega, by simpa using hs, h1.symm⟩

lemma idaStep_eq_done {c : AstarCfg} {limit : Nat} {r : Option (List Char)}
    {p : AstarCfg × Nat} (h : idaStep c limit = .done r p) :
    (selectMin c.fringe = none ∧ r = none ∧ p = (c, limit)) ∨
    (∃ s, selectMin c.fringe = some s ∧ s.1.hist.length ≤ limit ∧ s.1.solved = true ∧
      r = some s.1.hist ∧ p = (astarPopped c s, limit)) := by
  unfold idaStep at h
  rcases hsel : selectMin c.fringe with _ | s <;> rw [hsel] at h <;> dsimp only at h
  · injection h with h1 h2
    exact Or.inl ⟨rfl, h1.symm, h2.symm⟩
  · by_cases hlen : s.1.hist.length > limit
    · rw [if_pos hlen] at h
      exact StepRes.noConfusion h
    · rw [if_neg hlen] at h
      by_cases hs : s.1.solved = true
      · rw [if_pos hs] at h
        injection h with h1 h2
        exact Or.inr ⟨s, rfl, by omega, hs, h1.symm, h2.symm⟩
      · rw [if_neg hs] at h
        exact StepRes.noConfusion h

lemma bfsRun_pops : ∀ (fuel : Nat) (c : BfsCfg) (r : Option (List Char)) (c2 : BfsCfg),
    bfsRun fuel c = some (r, c2) → c.pops.length = c.nodes_expanded →
    c2.pops.length = c2.nodes_expanded + (if r.isSome then 1 else 0)
  | 0, c, r, c2, h, _ => by rw [bfsRun] at h; exact absurd h (by simp)
  | fuel + 1, c, r, c2, h, hinv => by
    rw [bfsRun] at h
    rcases hstep : bfsStep c with c' | ⟨r', c'⟩ <;> rw [hstep] at h <;> dsimp only at h
    · rcases bfsStep_eq_cont hstep with ⟨state, fringe, hf, hns, rfl⟩
      exact bfsRun_pops fuel _ r c2 h (by simp [hinv])
    · injection h with h1
      injection h1 with h1 h2
      subst h1
      subst h2
      rcases bfsStep_eq_done hstep with ⟨hf, rfl, rfl⟩ | ⟨state, fringe, hf, hs, rfl, rfl⟩
      · simpa using hinv
      · simp [hinv]

lemma dfsRun_pops : ∀ (fuel : Nat) (c : DfsCfg) (r : Option (List Char)) (c2 : DfsCfg),
    dfsRun fuel c = some (r, c2) → c.pops.length = c.nodes_expanded →
    c2.pops.length = c2.nodes_expanded + (if r.isSome then 1 else 0)
  | 0, c, r, c2, h, _ => by rw [dfsRun] at h; exact absurd h (by simp)
  | fuel + 1, c, r, c2, h, hinv => by
    rw [dfsRun] at h
    rcases hstep : dfsStep c with c' | ⟨r', c'⟩ <;> rw [hstep] at h <;> dsimp only at h
    · rcases dfsStep_eq_cont hstep with ⟨state, fringe, hf, hns, rfl⟩
      exact dfsRun_pops fuel _ r c2 h (by simp [hinv])
    · injection h with h1
      injection h1 with h1 h2
      subst h1
      subst h2
      rcases dfsStep_eq_done hstep with ⟨hf, rfl, rfl⟩ | ⟨state, fringe, hf, hs, rfl, rfl⟩
      · simpa using hinv
      · simp [hinv]

lemma astarRun_pops : ∀ (fuel : Nat) (c : AstarCfg) (r : Option (List Char)) (c2 : AstarCfg),
    astarRun fuel c = some (r, c2) → c.pops.length = c.nodes_expanded →
    c2.pops.length = c2.nodes_expanded + (if r.isSome then 1 else 0)
  | 0, c, r, c2, h, _ => by rw [astarRun] at h; exact absurd h (by simp)
  | fuel + 1, c, r, c2, h, hinv => by
    rw [astarRun] at h
    rcases hstep : astarStep c with c' | ⟨r', c'⟩ <;> rw [hstep] at h <;> dsimp only at h
    · rcases astarStep_eq_cont hstep with ⟨s, hsel, hns, rfl⟩
      exact astarRun_pops fuel _ r c2 h (by simp [astarExpanded, hinv])
    · injection h with h1
      injection h1 with h1 h2
      subst h1
      subst h2
      rcases astarStep_eq_done hstep with ⟨hsel, rfl, rfl⟩ | ⟨s, hsel, hs, rfl, rfl⟩
      · simpa using hinv
      · simp [astarPopped, hinv]

lemma idaRun_pops : ∀ (fuel : Nat) (c : AstarCfg) (limit : Nat)
    (r : Option (List Char)) (c2 : AstarCfg),
    idaRun fuel c limit = some (r, c2) → c.pops.length = c.nodes_expanded →
    c2.pops.length = c2.nodes_expanded + (if r.isSome then 1 else 0)
  | 0, c, limit, r, c2, h, _ => by rw [idaRun] at h; exact absurd h (by simp)
  | fuel + 1, c, limit, r, c2, h, hinv => by
    rw [idaRun] at h
    rcases hstep : idaStep c limit with p | ⟨r', p⟩ <;> rw [hstep] at h <;> dsimp only at h
    · rcases idaStep_eq_cont hstep with ⟨s, hsel, hlt, rfl⟩ | ⟨s, hsel, hle, hns, rfl⟩
      · exact idaRun_pops fuel c (limit + 1) r c2 h hinv
      · exact idaRun_pops fuel _ limit r c2 h (by simp [astarExpanded, hinv])
    · injection h with h1
      injection h1 with h1 h2
      subst h1
      rcases idaStep_eq_done hstep with ⟨hsel, rfl, hp⟩ | ⟨s, hsel, hle, hs, rfl, hp⟩
      · rw [hp] at h2
        subst h2
        simpa using hinv
      · rw [hp] at h2
        subst h2
        simp [astarPopped, hinv]

lemma idaRun_skip_one {c : AstarCfg} {limit : Nat} {s : Puzzle × Int}
    (hsel : selectMin c.fringe = some s) (hgt : limit < s.1.hist.length) (fuel : Nat) :
    idaRun (fuel + 1) c limit = idaRun fuel c (limit + 1) := by
  have hstep : idaStep c limit = .cont (c, limit + 1) := by
    unfold idaStep
    rw [hsel]
    dsimp only
    rw [if_pos hgt]
  rw [idaRun, hstep]

lemma idaRun_skip : ∀ (k : Nat) {c : AstarCfg} {limit : Nat} {s : Puzzle × Int},
    selectMin c.fringe = some s → s.1.hist.length = limit + k →
    ∀ fuel, idaRun (fuel + k) c limit = idaRun fuel c (limit + k)
  | 0, _, _, _, _, _, _ => rfl
  | k + 1, c, limit, s, hsel, hlen, fuel => by
    have h1 : idaRun (fuel + k + 1) c limit = idaRun (fuel + k) c (limit + 1) :=
      idaRun_skip_one hsel (by omega) (fuel + k)
    have h2 := @idaRun_skip k c (limit + 1) s hsel (by omega) fuel
    have heq : fuel + (k + 1) = fuel + k + 1 := by omega
    rw [heq, h1, h2]
    have heq2 : limit + 1 + k = limit + (k + 1) := by omega
    rw [heq2]

lemma idaRun_align {c : AstarCfg} {limit : Nat} {s : Puzzle × Int}
    (hsel : selectMin c.fringe = some s) :
    ∃ k limit2, s.1.hist.length ≤ limit2 ∧
      ∀ fuel, idaRun (fuel + k) c limit = idaRun fuel c limit2 := by
  by_cases hle : s.1.hist.length ≤ limit
  · exact ⟨0, limit, hle, fun fuel => rfl⟩
  · refine ⟨s.1.hist.length - limit, limit + (s.1.hist.length - limit), by omega, ?_⟩
    intro fuel
    exact idaRun_skip _ hsel (by omega) fuel

lemma idaStep_eq_astar {c : AstarCfg} {limit : Nat} {s : Puzzle × Int}
    (hsel : selectMin c.fringe = some s) (hle : s.1.hist.length ≤ limit) :
    idaStep c limit = match astarStep c with
      | .done r c2 => .done r (c2, limit)
      | .cont c2 => .cont (c2, limit) := by
  unfold idaStep astarStep
  rw [hsel]
  dsimp only
  rw [if_neg (by omega : ¬ s.1.hist.length > limit)]
  by_cases hs : s.1.solved = true
  · rw [if_pos hs, if_pos hs]
  · rw [if_neg hs, if_neg hs]

lemma astarRun_to_idaRun : ∀ (fuel : Nat) (c : AstarCfg) (r : Option (List Char))
    (c2 : AstarCfg), astarRun fuel c = some (r, c2) →
    ∀ limit, ∃ fuel2, idaRun fuel2 c limit = some (r, c2)
  | 0, c, r, c2, h => by rw [astarRun] at h; exact absurd h (by simp)
  | fuel + 1, c, r, c2, h => by
    intro limit
    rw [astarRun] at h
    rcases hstep : astarStep c with c' | ⟨r', c'⟩ <;> rw [hstep] at h <;> dsimp only at h
    · rcases astarStep_eq_cont hstep with ⟨s, hsel, hns, hc'⟩
      obtain ⟨k, limit2, hle2, halign⟩ := @idaRun_align c limit s hsel
      obtain ⟨fuel2, hida⟩ := astarRun_to_idaRun fuel c' r c2 h limit2
      refine ⟨fuel2 + 1 + k, ?_⟩
      rw [halign (fuel2 + 1), idaRun, idaStep_eq_astar hsel hle2, hstep]
      exact hida
    · injection h with h1
      injection h1 with hr hc
      subst hr
      subst hc
      rcases astarStep_eq_done hstep with ⟨hsel, hrr, hcc⟩ | ⟨s, hsel, hs, hrr, hcc⟩
      · refine ⟨1, ?_⟩
        have hstep2 : idaStep c limit = .done none (c, limit) := by
          unfold idaStep
          rw [hsel]
        rw [idaRun, hstep2]
        rw [hrr, hcc]
      · obtain ⟨k, limit2, hle2, halign⟩ := @idaRun_align c limit s hsel
        refine ⟨1 + k, ?_⟩
        rw [halign 1, idaRun, idaStep_eq_astar hsel hle2, hstep]

lemma idaRun_to_astarRun : ∀ (fuel : Nat) (c : AstarCfg) (limit : Nat)
    (r : Option (List Char)) (c2 : AstarCfg),
    idaRun fuel c limit = some (r, c2) → ∃ fuel2, astarRun fuel2 c = some (r, c2)
  | 0, c, limit, r, c2, h => by rw [idaRun] at h; exact absurd h (by simp)
  | fuel + 1, c, limit, r, c2, h => by
    rw [idaRun] at h
    rcases hstep : idaStep c limit with p | ⟨r', p⟩ <;> rw [hstep] at h <;> dsimp only at h
    · rcases idaStep_eq_cont hstep with ⟨s, hsel, hlt, hp⟩ | ⟨s, hsel, hle, hns, hp⟩
      · rw [hp] at h
        exact idaRun_to_astarRun fuel c (limit + 1) r c2 h
      · rw [hp] at h
        obtain ⟨fuel2, ha⟩ := idaRun_to_astarRun fuel _ limit r c2 h
        refine ⟨fuel2 + 1, ?_⟩
        have hstep2 : astarStep c = .cont (astarExpanded c s) := by
          unfold astarStep
          rw [hsel]
          dsimp only
          rw [if_neg (by simp [hns])]
          rfl
        rw [astarRun, hstep2]
        exact ha
    · injection h with h1
      injection h1 with hr hc
      subst hr
      rcases idaStep_eq_done hstep with ⟨hsel, hrr, hp⟩ | ⟨s, hsel, hle, hs, hrr, hp⟩
      · refine ⟨1, ?_⟩
        have hstep2 : astarStep c = .done none c := by
          unfold astarStep
          rw [hsel]
        rw [astarRun, hstep2]
        rw [hp] at hc
        rw [hrr, ← hc]
      · refine ⟨1, ?_⟩
        have hstep2 : astarStep c = .done (some s.1.hist) (astarPopped c s) := by
          unfold astarStep
          rw [hsel]
          dsimp only
          rw [if_pos hs]
          rfl
        rw [astarRun, hstep2]
        rw [hp] at hc
        rw [hrr, ← hc]

lemma get?_zero_eq_hole {p : Puzzle} (hn : p.board.Nodup)
    (hzero : p.board.get? p.hole = some 0) :
    ∀ j, p.board.get? j = some 0 → j = p.hole := by
  intro j hj
  rcases List.get?_eq_some.mp hj with ⟨hjlt, hjget⟩
  rcases List.get?_eq_some.mp hzero with ⟨hhlt, hhget⟩
  have heq : p.board.get ⟨j, hjlt⟩ = p.board.get ⟨p.hole, hhlt⟩ := by
    rw [hjget, hhget]
  have := (hn.get_inj_iff).mp heq
  exact congrArg Fin.val this

/-- The data-model invariant of a state: its board is a permutation of
`0..8` and its hole field is the board index of the blank. -/
def PermOK (p : Puzzle) : Prop :=
  p.board.Perm (List.range 9) ∧ p.hole = p.board.indexOf 0

lemma PermOK.len {p : Puzzle} (h : PermOK p) : p.board.length = 9 := by
  have h2 := h.1.length_eq
  simpa using h2

lemma PermOK.zero_mem {p : Puzzle} (h : PermOK p) : 0 ∈ p.board :=
  h.1.mem_iff.mpr (by simp)

lemma PermOK.hole_lt {p : Puzzle} (h : PermOK p) : p.hole < 9 := by
  rw [h.2, ← h.len]
  exact List.indexOf_lt_length.mpr h.zero_mem

lemma PermOK.hole_zero {p : Puzzle} (h : PermOK p) : p.board.get? p.hole = some 0 := by
  rw [h.2]
  exact List.indexOf_get? h.zero_mem

lemma PermOK.nodup {p : Puzzle} (h : PermOK p) : p.board.Nodup :=
  h.1.symm.nodup (List.nodup_range _)

lemma move_permOK {p : Puzzle} (h : PermOK p) {dst : Nat} {a : Char}
    (hmem : (dst, a) ∈ p.possible_moves) : PermOK (p.move dst a) := by
  obtain ⟨hperm, hhole⟩ := id h
  have hlen : p.board.length = 9 := h.len
  have hhlt : p.hole < 9 := h.hole_lt
  have hzero : p.board.get? p.hole = some 0 := h.hole_zero
  obtain ⟨hdlt, hdne⟩ := possible_moves_dst hlen hhlt hmem
  have hi : p.hole < p.board.length := by rw [hlen]; exact hhlt
  have hj : dst < p.board.length := by rw [hlen]; exact hdlt
  have hnodup : p.board.Nodup := h.nodup
  refine ⟨by rw [move_board]; exact (swapIdx_perm p.board p.hole dst hi hj).trans hperm, ?_⟩
  rw [move_hole_eq p dst a hlen hhlt hzero hdlt hdne, move_board]
  have hget : (swapIdx p.board p.hole dst).get? dst = some 0 := by
    rw [swapIdx_get? p.board dst hi hj (fun hx => hdne hx.symm),
      if_neg hdne, if_pos rfl]
    exact hzero
  refine (indexOf_eq_of_get? hget ?_).symm
  intro jj hjlt hcontra
  rw [swapIdx_get? p.board jj hi hj (fun hx => hdne hx.symm)] at hcontra
  by_cases hjh : jj = p.hole
  · rw [if_pos hjh] at hcontra
    exact hdne (get?_zero_eq_hole hnodup hzero dst hcontra)
  · rw [if_neg hjh, if_neg (by omega)] at hcontra
    exact hjh (get?_zero_eq_hole hnodup hzero jj hcontra)

lemma solved_iff {p : Puzzle} : p.solved = true ↔ p.board = goalBoard := by
  have hg : (HOLE : Nat) :: List.range' 1 (WIDTH ^ 2 - 1) = goalBoard := by decide
  rw [Puzzle.solved, hg]
  exact beq_iff_eq

lemma possible_moves_length (p : Puzzle) : p.possible_moves.length ≤ 4 := by
  rw [Puzzle.possible_moves]
  split_ifs <;> simp

lemma memBoard_iff {l : List Puzzle} {b : Board} :
    memBoard l b = true ↔ b ∈ l.map Puzzle.board := by
  simp only [memBoard, List.any_eq_true, beq_iff_eq, List.mem_map]

lemma memBoard_false_iff {l : List Puzzle} {b : Board} :
    memBoard l b = false ↔ b ∉ l.map Puzzle.board := by
  rw [← memBoard_iff]
  cases hm : memBoard l b <;> simp [hm]

lemma eq_of_mem_map_nodup {α β : Type} {f : α → β} :
    ∀ {l : List α}, (l.map f).Nodup → ∀ {a b : α}, a ∈ l → b ∈ l → f a = f b → a = b
  | [], _, _, _, ha, _, _ => absurd ha (by simp)
  | x :: t, hn, a, b, ha, hb, hf => by
    rw [List.map_cons, List.nodup_cons] at hn
    rcases List.mem_cons.mp ha with ha1 | ha2
    · rcases List.mem_cons.mp hb with hb1 | hb2
      · rw [ha1, hb1]
      · exfalso
        apply hn.1
        rw [← ha1, hf]
        exact List.mem_map_of_mem f hb2
    · rcases List.mem_cons.mp hb with hb1 | hb2
      · exfalso
        apply hn.1
        rw [← hb1, ← hf]
        exact List.mem_map_of_mem f ha2
      · exact eq_of_mem_map_nodup hn.2 ha2 hb2 hf

lemma move_changes_board {p : Puzzle} (h : PermOK p) {dst : Nat} {a : Char}
    (hmem : (dst, a) ∈ p.possible_moves) : (p.move dst a).board ≠ p.board := by
  intro hcontra
  obtain ⟨hdlt, hdne⟩ := possible_moves_dst h.len h.hole_lt hmem
  have hi : p.hole < p.board.length := by rw [h.len]; exact h.hole_lt
  have hj : dst < p.board.length := by rw [h.len]; exact hdlt
  have h1 : (p.move dst a).board.get? p.hole = p.board.get? dst := by
    rw [move_board, swapIdx_get? p.board p.hole hi hj (fun hx => hdne hx.symm), if_pos rfl]
  rw [hcontra, h.hole_zero] at h1
  have h2 := get?_zero_eq_hole h.nodup h.hole_zero dst h1.symm
  exact hdne h2

lemma memBoard_append {l1 l2 : List Puzzle} {b : Board} :
    memBoard (l1 ++ l2) b = (memBoard l1 b || memBoard l2 b) :=
  List.any_append

lemma mem_of_mem_removeState {l : List Puzzle} {b : Board} {q : Puzzle}
    (h : q ∈ removeState l b) : q ∈ l :=
  (List.eraseP_sublist _).subset h

lemma map_board_removeState : ∀ {l : List Puzzle}, (l.map Puzzle.board).Nodup →
    ∀ (b bd : Board), (bd ∈ (removeState l b).map Puzzle.board ↔
      bd ∈ l.map Puzzle.board ∧ bd ≠ b)
  | [], _, b, bd => by simp [removeState]
  | x :: t, hn, b, bd => by
    rw [List.map_cons, List.nodup_cons] at hn
    rw [removeState, List.eraseP_cons]
    by_cases hx : x.board = b
    · rw [hx]
      simp only [beq_self_eq_true, cond_true]
      constructor
      · intro hmem
        refine ⟨by rw [List.map_cons]; exact List.mem_cons_of_mem _ hmem, ?_⟩
        intro hbd
        rw [hbd, ← hx] at hmem
        exact hn.1 hmem
      · rintro ⟨hmem, hne⟩
        rw [List.map_cons, List.mem_cons] at hmem
        rcases hmem with h1 | h1
        · exact absurd (h1.trans hx) hne
        · exact h1
    · rw [beq_eq_false_iff_ne.mpr hx]
      simp only [cond_false, List.map_cons, List.mem_cons]
      rw [show (List.eraseP (fun q => q.board == b) t) = removeState t b from rfl,
        map_board_removeState hn.2 b bd]
      constructor
      · rintro (h1 | ⟨h1, h2⟩)
        · exact ⟨Or.inl h1, h1 ▸ hx⟩
        · exact ⟨Or.inr h1, h2⟩
      · rintro ⟨h1 | h1, h2⟩
        · exact Or.inl h1
        · exact Or.inr ⟨h1, h2⟩

lemma removeState_map_sublist (l : List Puzzle) (b : Board) :
    ((removeState l b).map Puzzle.board).Sublist (l.map Puzzle.board) :=
  (List.eraseP_sublist _).map _

lemma mem_addState {l : List Puzzle} {p q : Puzzle} (h : q ∈ addState l p) :
    q ∈ l ∨ q = p := by
  unfold addState at h
  split_ifs at h
  · exact Or.inl h
  · rcases List.mem_cons.mp h with h1 | h1
    · exact Or.inr h1
    · exact Or.inl h1

lemma memBoard_addState {l : List Puzzle} {p : Puzzle} {bd : Board} :
    memBoard (addState l p) bd = true ↔ memBoard l bd = true ∨ bd = p.board := by
  unfold addState
  split_ifs with hp
  · constructor
    · exact Or.inl
    · rintro (h1 | rfl)
      · exact h1
      · exact hp
  · rw [memBoard, List.any_cons]
    simp only [Bool.or_eq_true, beq_iff_eq]
    rw [show (l.any fun q => q.board == bd) = memBoard l bd from rfl]
    constructor
    · rintro (h1 | h1)
      · exact Or.inr h1.symm
      · exact Or.inl h1
    · rintro (h1 | h1)
      · exact Or.inr h1
      · exact Or.inl h1.symm

lemma addState_nodup {l : List Puzzle} {p : Puzzle}
    (hn : (l.map Puzzle.board).Nodup) : ((addState l p).map Puzzle.board).Nodup := by
  unfold addState
  split_ifs with hp
  · exact hn
  · rw [List.map_cons, List.nodup_cons]
    exact ⟨fun hc => (memBoard_false_iff.mp (by simpa using hp)) hc, hn⟩

lemma addState_length {l : List Puzzle} {p : Puzzle} :
    (addState l p).length = if memBoard l p.board = true then l.length else l.length + 1 := by
  unfold addState
  split_ifs <;> simp

lemma bfsExpand_spec (state : Puzzle) (explored : List Puzzle) :
    ∀ (moves : List (Nat × Char)) (fr fs : List Puzzle),
      ∃ ns : List Puzzle,
        bfsExpand state explored moves fr fs = (fr ++ ns, fs ++ ns) ∧
        (∀ q ∈ ns, ∃ ma ∈ moves, q = state.move ma.1 ma.2 ∧
          memBoard explored q.board = false) ∧
        ns.length ≤ moves.length ∧
        (ns.map Puzzle.board).Nodup ∧
        (∀ q ∈ ns, memBoard fs q.board = false) ∧
        (∀ ma ∈ moves, memBoard explored (state.move ma.1 ma.2).board = true ∨
          memBoard (fs ++ ns) (state.move ma.1 ma.2).board = true)
  | [], fr, fs => ⟨[], by simp [bfsExpand], by simp, by simp, by simp, by simp, by simp⟩
  | (pos, action) :: moves, fr, fs => by
    rw [bfsExpand]
    by_cases hg : ¬ memBoard explored (state.move pos action).board = true ∧
        ¬ memBoard fs (state.move pos action).board = true
    · rw [if_pos hg]
      obtain ⟨ns2, heq, hprov, hlen, hnd, hfs, hcov⟩ :=
        bfsExpand_spec state explored moves (fr ++ [state.move pos action])
          (fs ++ [state.move pos action])
      refine ⟨state.move pos action :: ns2, ?_, ?_, ?_, ?_, ?_, ?_⟩
      · rw [heq]
        simp
      · intro q hq
        rcases List.mem_cons.mp hq with rfl | hq
        · exact ⟨(pos, action), List.mem_cons_self _ _, rfl, by simpa using hg.1⟩
        · obtain ⟨ma, hma, hqq, hqe⟩ := hprov q hq
          exact ⟨ma, List.mem_cons_of_mem _ hma, hqq, hqe⟩
      · simpa using Nat.succ_le_succ hlen
      · rw [List.map_cons, List.nodup_cons]
        refine ⟨fun hc => ?_, hnd⟩
        rcases List.mem_map.mp hc with ⟨q, hq, hqb⟩
        have hf2 := hfs q hq
        rw [memBoard_append] at hf2
        have h2 : memBoard [state.move pos action] q.board = false :=
          (Bool.or_eq_false_iff.mp hf2).2
        rw [hqb] at h2
        exact (memBoard_false_iff.mp h2) (by simp)
      · intro q hq
        rcases List.mem_cons.mp hq with rfl | hq
        · exact by simpa using hg.2
        · have := hfs q hq
          rw [memBoard_append] at this
          exact (Bool.or_eq_false_iff.mp this).1
      · intro ma hma
        rcases List.mem_cons.mp hma with rfl | hma
        · right
          rw [memBoard_iff]
          simp
        · rcases hcov ma hma with h1 | h1
          · exact Or.inl h1
          · right
            rw [memBoard_iff] at h1 ⊢
            simpa using h1
    · rw [if_neg hg]
      obtain ⟨ns2, heq, hprov, hlen, hnd, hfs, hcov⟩ :=
        bfsExpand_spec state explored moves fr fs
      refine ⟨ns2, heq, ?_, by simp only [List.length_cons]; omega, hnd, hfs, ?_⟩
      · intro q hq
        obtain ⟨ma, hma, hqq, hqe⟩ := hprov q hq
        exact ⟨ma, List.mem_cons_of_mem _ hma, hqq, hqe⟩
      · intro ma hma
        rcases List.mem_cons.mp hma with rfl | hma
        · rcases not_and_or.mp hg with h1 | h1
          · exact Or.inl (by simpa using not_not.mp h1)
          · right
            have h2 : memBoard fs (state.move pos action).board = true := by
              simpa using not_not.mp h1
            rw [memBoard_append, h2]
            rfl
        · exact hcov ma hma

/-- A single blank move between boards, as performed from the canonical
state holding that board: the board-level neighbour relation of the
search space. -/
def boardNeighbors (b : Board) : List Board :=
  (initState b).possible_moves.map fun m => ((initState b).move m.1 m.2).board

lemma possible_moves_congr {p q : Puzzle} (hb : p.board = q.board) (hh : p.hole = q.hole) :
    p.possible_moves = q.possible_moves := by
  rw [Puzzle.possible_moves, Puzzle.possible_moves, hb, hh]

lemma move_board_congr {p q : Puzzle} (hb : p.board = q.board) (hh : p.hole = q.hole)
    (dst : Nat) (a a2 : Char) : (p.move dst a).board = (q.move dst a2).board := by
  rw [move_board, move_board, hb, hh]

lemma boardNeighbors_of_permOK {p : Puzzle} (h : PermOK p) :
    boardNeighbors p.board = p.possible_moves.map fun m => (p.move m.1 m.2).board := by
  have hb : (initState p.board).board = p.board := rfl
  have hh : (initState p.board).hole = p.hole := h.2.symm
  rw [boardNeighbors, possible_moves_congr hb hh]
  exact List.map_congr_left fun m _ => move_board_congr hb hh m.1 m.2 m.2

/-- Paths in the board move graph: `Reaches s b n` holds when `n` single
blank moves lead from board `s` to board `b`. -/
inductive Reaches (s : Board) : Board → Nat → Prop
  | refl : Reaches s s 0
  | tail {b b2 : Board} {n : Nat} : Reaches s b n → b2 ∈ boardNeighbors b →
      Reaches s b2 (n + 1)

lemma mem_addState_of_mem {l : List Puzzle} {p q : Puzzle} (h : q ∈ l) :
    q ∈ addState l p := by
  unfold addState
  split_ifs
  · exact h
  · exact List.mem_cons_of_mem _ h

lemma memBoard_addState_false {l : List Puzzle} {p : Puzzle} {bd : Board} :
    memBoard (addState l p) bd = false ↔ memBoard l bd = false ∧ bd ≠ p.board := by
  constructor
  · intro h
    have h2 : ¬ (memBoard l bd = true ∨ bd = p.board) := by
      rw [← memBoard_addState, h]
      simp
    refine ⟨?_, fun hc => h2 (Or.inr hc)⟩
    rcases hm : memBoard l bd with _ | _
    · rfl
    · exact absurd (Or.inl hm) h2
  · rintro ⟨h1, h2⟩
    rcases hm : memBoard (addState l p) bd with _ | _
    · rfl
    · rcases memBoard_addState.mp hm with h3 | h3
      · rw [h1] at h3
        exact absurd h3 (by simp)
      · exact absurd h3 h2

/-- The loop invariant of `breath_first_search` relative to the root board:
data-model validity of every held state, mirroring of `fringe_set` and the
queue, the monotone two-level queue shape, neighbour closure of expanded
states, and optimality of every recorded history. -/
structure BfsInv (root : Board) (c : BfsCfg) : Prop where
  fringe_perm : ∀ q ∈ c.fringe, PermOK q
  expl_perm : ∀ q ∈ c.explored, PermOK q
  fringe_nodup : (c.fringe.map Puzzle.board).Nodup
  expl_nodup : (c.explored.map Puzzle.board).Nodup
  fs_nodup : (c.fringe_set.map Puzzle.board).Nodup
  mirror : ∀ bd, memBoard c.fringe_set bd = true ↔ bd ∈ c.fringe.map Puzzle.board
  not_expl : ∀ q ∈ c.fringe, memBoard c.explored q.board = false ∨ q.board = root
  root_expl : ∃ q ∈ c.explored, q.board = root ∧ q.hist = []
  root_entry : ∀ q ∈ c.fringe, q.board = root → q.hist = []
  sound_fringe : ∀ q ∈ c.fringe, Reaches root q.board q.hist.length
  sound_expl : ∀ q ∈ c.explored, Reaches root q.board q.hist.length
  sorted : c.fringe.Pairwise fun p q => p.hist.length ≤ q.hist.length
  spread : ∀ p ∈ c.fringe, ∀ q ∈ c.fringe, p.hist.length ≤ q.hist.length + 1
  closure : ∀ q ∈ c.explored, (∃ q2 ∈ c.fringe, q2.board = q.board) ∨
    (∀ b2 ∈ boardNeighbors q.board,
      (∃ q2 ∈ c.explored, q2.board = b2 ∧ q2.hist.length ≤ q.hist.length + 1) ∨
      (∃ q2 ∈ c.fringe, q2.board = b2 ∧ q2.hist.length ≤ q.hist.length + 1))
  expl_opt : ∀ q ∈ c.explored, ∀ m, Reaches root q.board m → q.hist.length ≤ m

lemma bfsInv_init {b : Board} (hperm : b.Perm (List.range 9)) :
    BfsInv b (bfsInit b) := by
  have hone : ∀ q ∈ [initState b], q = initState b := by
    intro q hq
    simpa using hq
  refine ⟨?_, ?_, by simp [bfsInit], by simp [bfsInit], by simp [bfsInit],
    ?_, ?_, ?_, ?_, ?_, ?_, ?_, ?_, ?_, ?_⟩
  · intro q hq
    rw [hone q hq]
    exact ⟨hperm, rfl⟩
  · intro q hq
    rw [hone q hq]
    exact ⟨hperm, rfl⟩
  · intro bd
    exact memBoard_iff
  · intro q hq
    exact Or.inr (by rw [hone q hq]; rfl)
  · exact ⟨initState b, by simp [bfsInit], rfl, rfl⟩
  · intro q hq _
    rw [hone q hq]
    rfl
  · intro q hq
    rw [hone q hq]
    exact Reaches.refl
  · intro q hq
    rw [hone q hq]
    exact Reaches.refl
  · simp [bfsInit]
  · intro p hp q hq
    rw [hone p hp, hone q hq]
    omega
  · intro q hq
    exact Or.inl ⟨initState b, by simp [bfsInit], by rw [hone q hq]⟩
  · intro q hq m _
    rw [hone q hq]
    simp [initState, pyPuzzle]

/-- Frontier cut: every path from the root ends in an explored board whose
recorded history is at most the path length, or crosses a fringe entry of
history length at most the path length. -/
lemma bfs_cut {root : Board} {c : BfsCfg} (hinv : BfsInv root c) :
    ∀ {b m}, Reaches root b m →
      (∃ q ∈ c.explored, q.board = b ∧ q.hist.length ≤ m) ∨
      (∃ q ∈ c.fringe, q.hist.length ≤ m) := by
  intro b m h
  induction h with
  | refl =>
    obtain ⟨q, hq, hqb, hqh⟩ := hinv.root_expl
    exact Or.inl ⟨q, hq, hqb, by simp [hqh]⟩
  | tail hreach hnb ih =>
    rcases ih with ⟨q, hq, hqb, hqh⟩ | ⟨q, hq, hqh⟩
    · rcases hinv.closure q hq with ⟨q2, h2, h2b⟩ | hcl
      · -- the explored board is still on the fringe with history `[]`-level
        -- bound: by `not_expl` it must be the root board with empty history
        rcases hinv.not_expl q2 h2 with hne | hroot
        · rw [h2b] at hne
          exact absurd ((memBoard_iff).mpr (List.mem_map_of_mem _ hq)) (by simp [hne])
        · exact Or.inr ⟨q2, h2, by rw [hinv.root_entry q2 h2 hroot]; simp⟩
      · rcases hcl _ (hqb ▸ hnb) with ⟨q2, h2, h2b, h2h⟩ | ⟨q2, h2, h2b, h2h⟩
        · exact Or.inl ⟨q2, h2, h2b, by omega⟩
        · exact Or.inr ⟨q2, h2, by omega⟩
    · exact Or.inr ⟨q, hq, by omega⟩

/-- Minimality at the pop: the history length of the queue head is at most
the length of any path from the root to its board. -/
lemma bfs_pop_min {root : Board} {c : BfsCfg} (hinv : BfsInv root c)
    {state : Puzzle} {fringe : List Puzzle} (hf : c.fringe = state :: fringe) :
    ∀ m, Reaches root state.board m → state.hist.length ≤ m := by
  intro m hm
  have hhead : state ∈ c.fringe := by rw [hf]; exact List.mem_cons_self _ _
  rcases bfs_cut hinv hm with ⟨q, hq, hqb, hqh⟩ | ⟨q, hq, hqh⟩
  · rcases hinv.not_expl state hhead with hne | hroot
    · rw [← hqb] at hne
      exact absurd ((memBoard_iff).mpr (List.mem_map_of_mem _ hq)) (by simp [hne])
    · rw [hinv.root_entry state hhead hroot]
      simp
  · have hle : state.hist.length ≤ q.hist.length := by
      rw [hf] at hq
      rcases List.mem_cons.mp hq with rfl | hq2
      · exact le_refl _
      · have hp := List.pairwise_cons.mp (hf ▸ hinv.sorted)
        exact hp.1 q hq2
    omega

lemma bfsStep_cont_inv {root : Board} {c c2 : BfsCfg} (hinv : BfsInv root c)
    (hstep : bfsStep c = .cont c2) : BfsInv root c2 := by
  rcases bfsStep_eq_cont hstep with ⟨state, fringe, hf, hnsv, rfl⟩
  obtain ⟨ns, heq, hprov, hlenn, hndn, hfsn, hcov⟩ :=
    bfsExpand_spec state c.explored state.possible_moves fringe
      (removeState c.fringe_set state.board)
  have hstate_mem : state ∈ c.fringe := by
    rw [hf]
    exact List.mem_cons_self _ _
  have hstate_perm : PermOK state := hinv.fringe_perm state hstate_mem
  have hrest_mem : ∀ q ∈ fringe, q ∈ c.fringe := by
    intro q hq
    rw [hf]
    exact List.mem_cons_of_mem _ hq
  have hsorted_head : ∀ q ∈ fringe, state.hist.length ≤ q.hist.length :=
    (List.pairwise_cons.mp (hf ▸ hinv.sorted)).1
  have hsorted_rest : fringe.Pairwise (fun p q => p.hist.length ≤ q.hist.length) :=
    (List.pairwise_cons.mp (hf ▸ hinv.sorted)).2
  have hrest_spread : ∀ q ∈ fringe, q.hist.length ≤ state.hist.length + 1 := by
    intro q hq
    exact hinv.spread q (hrest_mem q hq) state hstate_mem
  have hns_hist : ∀ q ∈ ns, q.hist.length = state.hist.length + 1 := by
    intro q hq
    obtain ⟨ma, hma, rfl, _⟩ := hprov q hq
    rw [move_hist]
    simp
  have hns_perm : ∀ q ∈ ns, PermOK q := by
    intro q hq
    obtain ⟨ma, hma, rfl, _⟩ := hprov q hq
    have hma2 : (ma.1, ma.2) ∈ state.possible_moves := by
      rw [Prod.mk.eta]
      exact hma
    exact move_permOK hstate_perm hma2
  have hns_sound : ∀ q ∈ ns, Reaches root q.board (state.hist.length + 1) := by
    intro q hq
    obtain ⟨ma, hma, rfl, _⟩ := hprov q hq
    refine Reaches.tail (hinv.sound_fringe state hstate_mem) ?_
    rw [boardNeighbors_of_permOK hstate_perm]
    exact List.mem_map.mpr ⟨ma, hma, rfl⟩
  have hns_ne_state : ∀ q ∈ ns, q.board ≠ state.board := by
    intro q hq
    obtain ⟨ma, hma, rfl, _⟩ := hprov q hq
    have hma2 : (ma.1, ma.2) ∈ state.possible_moves := by
      rw [Prod.mk.eta]
      exact hma
    exact move_changes_board hstate_perm hma2
  have hroot_mem_expl : memBoard c.explored root = true := by
    obtain ⟨q, hq, hqb, _⟩ := hinv.root_expl
    exact memBoard_iff.mpr (hqb ▸ List.mem_map_of_mem _ hq)
  have hns_ne_root : ∀ q ∈ ns, q.board ≠ root := by
    intro q hq hcontra
    obtain ⟨ma, hma, hqq, hqe⟩ := hprov q hq
    rw [hcontra, hroot_mem_expl] at hqe
    exact absurd hqe (by simp)
  have hhead_not_rest : state.board ∉ fringe.map Puzzle.board := by
    have h2 := hf ▸ hinv.fringe_nodup
    rw [List.map_cons, List.nodup_cons] at h2
    exact h2.1
  have hrest_nodup : (fringe.map Puzzle.board).Nodup := by
    have h2 := hf ▸ hinv.fringe_nodup
    rw [List.map_cons, List.nodup_cons] at h2
    exact h2.2
  have hrs_nodup : ((removeState c.fringe_set state.board).map Puzzle.board).Nodup :=
    List.Nodup.sublist (removeState_map_sublist c.fringe_set state.board) hinv.fs_nodup
  have hmember_rs : ∀ bd, bd ∈ (removeState c.fringe_set state.board).map Puzzle.board ↔
      bd ∈ fringe.map Puzzle.board := by
    intro bd
    rw [map_board_removeState hinv.fs_nodup]
    constructor
    · rintro ⟨h1, h2⟩
      have h3 := (hinv.mirror bd).mp (memBoard_iff.mpr h1)
      rw [hf, List.map_cons, List.mem_cons] at h3
      rcases h3 with h3 | h3
      · exact absurd h3 h2
      · exact h3
    · intro h1
      refine ⟨?_, ?_⟩
      · have h3 : bd ∈ c.fringe.map Puzzle.board := by
          rw [hf, List.map_cons]
          exact List.mem_cons_of_mem _ h1
        exact memBoard_iff.mp ((hinv.mirror bd).mpr h3)
      · intro hcontra
        rw [hcontra] at h1
        exact hhead_not_rest h1
  have hns_not_rest : ∀ q ∈ ns, q.board ∉ fringe.map Puzzle.board := by
    intro q hq hcontra
    have h2 := hfsn q hq
    rw [memBoard_false_iff] at h2
    exact h2 ((hmember_rs q.board).mpr hcontra)
  have hexpl_board_eq : ∀ q q2, q ∈ c.explored → q2 ∈ c.explored →
      q.board = q2.board → q = q2 :=
    fun q q2 hq hq2 hb => eq_of_mem_map_nodup hinv.expl_nodup hq hq2 hb
  have hstate_closure : ∀ b2 ∈ boardNeighbors state.board,
      (∃ q2 ∈ addState c.explored state, q2.board = b2 ∧
        q2.hist.length ≤ state.hist.length + 1) ∨
      (∃ q2 ∈ fringe ++ ns, q2.board = b2 ∧ q2.hist.length ≤ state.hist.length + 1) := by
    intro b2 hb2
    rw [boardNeighbors_of_permOK hstate_perm] at hb2
    rcases List.mem_map.mp hb2 with ⟨ma, hma, rfl⟩
    rcases hcov ma hma with h1 | h1
    · rcases List.mem_map.mp (memBoard_iff.mp h1) with ⟨q2, hq2, hq2b⟩
      refine Or.inl ⟨q2, mem_addState_of_mem hq2, hq2b, ?_⟩
      apply hinv.expl_opt q2 hq2
      rw [hq2b]
      exact Reaches.tail (hinv.sound_fringe state hstate_mem)
        (by rw [boardNeighbors_of_permOK hstate_perm]
            exact List.mem_map.mpr ⟨ma, hma, rfl⟩)
    · rw [memBoard_append, Bool.or_eq_true] at h1
      rcases h1 with h1 | h1
      · rcases List.mem_map.mp ((hmember_rs _).mp (memBoard_iff.mp h1)) with ⟨q2, hq2, hq2b⟩
        exact Or.inr ⟨q2, List.mem_append_left _ hq2, hq2b, hrest_spread q2 hq2⟩
      · rcases List.mem_map.mp (memBoard_iff.mp h1) with ⟨q2, hq2, hq2b⟩
        exact Or.inr ⟨q2, List.mem_append_right _ hq2, hq2b,
          le_of_eq (hns_hist q2 hq2)⟩
  simp only [heq]
  refine ⟨?_, ?_, ?_, ?_, ?_, ?_, ?_, ?_, ?_, ?_, ?_, ?_, ?_, ?_, ?_⟩
  · intro q hq
    rcases List.mem_append.mp hq with hq | hq
    · exact hinv.fringe_perm q (hrest_mem q hq)
    · exact hns_perm q hq
  · intro q hq
    rcases mem_addState hq with hq | rfl
    · exact hinv.expl_perm q hq
    · exact hstate_perm
  · rw [List.map_append, List.nodup_append]
    refine ⟨hrest_nodup, hndn, ?_⟩
    intro bd h1 h2
    rcases List.mem_map.mp h2 with ⟨q, hq, rfl⟩
    exact hns_not_rest q hq h1
  · exact addState_nodup hinv.expl_nodup
  · rw [List.map_append, List.nodup_append]
    refine ⟨hrs_nodup, hndn, ?_⟩
    intro bd h1 h2
    rcases List.mem_map.mp h2 with ⟨q, hq, rfl⟩
    exact hns_not_rest q hq ((hmember_rs q.board).mp h1)
  · intro bd
    rw [memBoard_append, Bool.or_eq_true, List.map_append, List.mem_append,
      memBoard_iff, memBoard_iff, hmember_rs bd]
  · intro q hq
    rcases List.mem_append.mp hq with hq | hq
    · rcases hinv.not_expl q (hrest_mem q hq) with hne | hroot
      · left
        rw [memBoard_addState_false]
        refine ⟨hne, ?_⟩
        intro hcontra
        apply hhead_not_rest
        rw [← hcontra]
        exact List.mem_map_of_mem _ hq
      · exact Or.inr hroot
    · left
      rw [memBoard_addState_false]
      obtain ⟨ma, hma, hqq, hqe⟩ := hprov q hq
      exact ⟨hqe, hns_ne_state q hq⟩
  · obtain ⟨q, hq, hqb, hqh⟩ := hinv.root_expl
    exact ⟨q, mem_addState_of_mem hq, hqb, hqh⟩
  · intro q hq hqb
    rcases List.mem_append.mp hq with hq | hq
    · exact hinv.root_entry q (hrest_mem q hq) hqb
    · exact absurd hqb (hns_ne_root q hq)
  · intro q hq
    rcases List.mem_append.mp hq with hq | hq
    · exact hinv.sound_fringe q (hrest_mem q hq)
    · rw [hns_hist q hq]
      exact hns_sound q hq
  · intro q hq
    rcases mem_addState hq with hq | rfl
    · exact hinv.sound_expl q hq
    · exact hinv.sound_fringe _ hstate_mem
  · rw [List.pairwise_append]
    refine ⟨hsorted_rest, ?_, ?_⟩
    · refine List.pairwise_of_forall_mem_list ?_
      intro a ha b hb
      rw [hns_hist a ha, hns_hist b hb]
    · intro a ha b hb
      rw [hns_hist b hb]
      exact hrest_spread a ha
  · intro p hp q hq
    have hp2 : p.hist.length ≤ state.hist.length + 1 := by
      rcases List.mem_append.mp hp with h | h
      · exact hrest_spread p h
      · exact le_of_eq (hns_hist p h)
    have hq2 : state.hist.length ≤ q.hist.length := by
      rcases List.mem_append.mp hq with h | h
      · exact hsorted_head q h
      · rw [hns_hist q h]
        omega
    omega
  · intro q' hq'
    rcases mem_addState hq' with hq' | rfl
    · rcases hinv.closure q' hq' with ⟨q2, hq2, hq2b⟩ | hcl
      · rw [hf] at hq2
        rcases List.mem_cons.mp hq2 with heq2 | hq2
        · rw [heq2] at hq2b
          have hroot : state.board = root := by
            rcases hinv.not_expl state hstate_mem with hne | h
            · exfalso
              rw [memBoard_false_iff] at hne
              apply hne
              rw [hq2b]
              exact List.mem_map_of_mem _ hq'
            · exact h
          have hql : q'.hist = [] := by
            obtain ⟨qr, hqr, hqrb, hqrh⟩ := hinv.root_expl
            have h5 : q' = qr := hexpl_board_eq q' qr hq' hqr (by rw [← hq2b, hroot, hqrb])
            rw [h5, hqrh]
          have hstl : state.hist = [] := hinv.root_entry state hstate_mem hroot
          refine Or.inr ?_
          intro b2 hb2
          rw [← hq2b] at hb2
          have e1 : state.hist.length = 0 := by rw [hstl]; rfl
          have e2 : q'.hist.length = 0 := by rw [hql]; rfl
          rcases hstate_closure b2 hb2 with ⟨q3, h3, h3b, h3l⟩ | ⟨q3, h3, h3b, h3l⟩
          · exact Or.inl ⟨q3, h3, h3b, by omega⟩
          · exact Or.inr ⟨q3, h3, h3b, by omega⟩
        · exact Or.inl ⟨q2, List.mem_append_left _ hq2, hq2b⟩
      · refine Or.inr ?_
        intro b2 hb2
        rcases hcl b2 hb2 with ⟨q2, hq2, hq2b, hq2l⟩ | ⟨q2, hq2, hq2b, hq2l⟩
        · exact Or.inl ⟨q2, mem_addState_of_mem hq2, hq2b, hq2l⟩
        · rw [hf] at hq2
          rcases List.mem_cons.mp hq2 with heq2 | hq2
          · rw [heq2] at hq2b hq2l
            by_cases hmem : memBoard c.explored state.board = true
            · rcases List.mem_map.mp (memBoard_iff.mp hmem) with ⟨q3, hq3, hq3b⟩
              refine Or.inl ⟨q3, mem_addState_of_mem hq3, by rw [hq3b, hq2b], ?_⟩
              have hroot : state.board = root := by
                rcases hinv.not_expl state hstate_mem with hne | h
                · rw [hne] at hmem
                  exact absurd hmem (by simp)
                · exact h
              obtain ⟨qr, hqr, hqrb, hqrh⟩ := hinv.root_expl
              have h5 : q3 = qr := hexpl_board_eq _ _ hq3 hqr (by rw [hq3b, hroot, hqrb])
              rw [h5, hqrh]
              simp
            · refine Or.inl ⟨state, ?_, hq2b, hq2l⟩
              unfold addState
              rw [if_neg hmem]
              exact List.mem_cons_self _ _
          · exact Or.inr ⟨q2, List.mem_append_left _ hq2, hq2b, hq2l⟩
    · exact Or.inr hstate_closure
  · intro q' hq' m hm
    rcases mem_addState hq' with hq' | rfl
    · exact hinv.expl_opt q' hq' m hm
    · exact bfs_pop_min hinv hf m hm

/-- Number of boards that are permutations of `0..8`: the size of the
finite state space. -/
def permBound : Nat := ((List.range 9).permutations).length

lemma explored_le_permBound {l : List Puzzle} (hperm : ∀ q ∈ l, PermOK q)
    (hn : (l.map Puzzle.board).Nodup) : l.length ≤ permBound := by
  have hsub : (l.map Puzzle.board) ⊆ (List.range 9).permutations := by
    intro bd hbd
    rcases List.mem_map.mp hbd with ⟨q, hq, rfl⟩
    exact List.mem_permutations.mpr (hperm q hq).1
  have h2 := (hn.subperm hsub).length_le
  rw [List.length_map] at h2
  exact h2

/-- Termination measure for BFS: dominated by the number of unexplored
permutation boards, then the fringe size, with a credit for the root entry
whose pop does not grow the explored set. -/
def bfsMeasure (c : BfsCfg) (root : Board) : Nat :=
  6 * (permBound + 1 - c.explored.length) + c.fringe.length +
    (if root ∈ c.fringe.map Puzzle.board then 6 else 0)

lemma bfsStep_cont_measure {root : Board} {c c2 : BfsCfg} (hinv : BfsInv root c)
    (hstep : bfsStep c = .cont c2) : bfsMeasure c2 root < bfsMeasure c root := by
  rcases bfsStep_eq_cont hstep with ⟨state, fringe, hf, hnsv, rfl⟩
  obtain ⟨ns, heq, hprov, hlenn, hndn, hfsn, hcov⟩ :=
    bfsExpand_spec state c.explored state.possible_moves fringe
      (removeState c.fringe_set state.board)
  have hstate_mem : state ∈ c.fringe := by
    rw [hf]
    exact List.mem_cons_self _ _
  have hroot_mem_expl : memBoard c.explored root = true := by
    obtain ⟨q, hq, hqb, _⟩ := hinv.root_expl
    exact memBoard_iff.mpr (hqb ▸ List.mem_map_of_mem _ hq)
  have hns_ne_root : ∀ q ∈ ns, q.board ≠ root := by
    intro q hq hcontra
    obtain ⟨ma, hma, hqq, hqe⟩ := hprov q hq
    rw [hcontra, hroot_mem_expl] at hqe
    exact absurd hqe (by simp)
  have hexpl_le : c.explored.length ≤ permBound :=
    explored_le_permBound hinv.expl_perm hinv.expl_nodup
  have hns4 : ns.length ≤ 4 := le_trans hlenn (possible_moves_length state)
  have hflen : c.fringe.length = fringe.length + 1 := by
    rw [hf]
    rfl
  by_cases hmem : memBoard c.explored state.board = true
  · have hroot : state.board = root := by
      rcases hinv.not_expl state hstate_mem with hne | h
      · rw [hne] at hmem
        exact absurd hmem (by simp)
      · exact h
    have hexpl_eq : addState c.explored state = c.explored := by
      unfold addState
      rw [if_pos hmem]
    have hpre_ind : root ∈ c.fringe.map Puzzle.board := by
      rw [hf, List.map_cons, ← hroot]
      exact List.mem_cons_self _ _
    have hpost_ind : root ∉ (fringe ++ ns).map Puzzle.board := by
      rw [List.map_append, List.mem_append]
      rintro (h1 | h1)
      · have h2 := hf ▸ hinv.fringe_nodup
        rw [List.map_cons, List.nodup_cons] at h2
        rw [← hroot] at h1
        exact h2.1 h1
      · rcases List.mem_map.mp h1 with ⟨q, hq, hqb⟩
        exact hns_ne_root q hq hqb
    rw [bfsMeasure, bfsMeasure]
    simp only [heq]
    rw [hexpl_eq, if_neg hpost_ind, if_pos hpre_ind]
    simp only [List.length_append]
    omega
  · have hexpl_len : (addState c.explored state).length = c.explored.length + 1 := by
      rw [addState_length, if_neg hmem]
    have hpost_ind : root ∈ (fringe ++ ns).map Puzzle.board →
        root ∈ c.fringe.map Puzzle.board := by
      rw [List.map_append, List.mem_append]
      rintro (h1 | h1)
      · rw [hf, List.map_cons]
        exact List.mem_cons_of_mem _ h1
      · rcases List.mem_map.mp h1 with ⟨q, hq, hqb⟩
        exact absurd hqb (hns_ne_root q hq)
    rw [bfsMeasure, bfsMeasure]
    simp only [heq]
    rw [hexpl_len]
    by_cases hpi : root ∈ (fringe ++ ns).map Puzzle.board
    · rw [if_pos hpi, if_pos (hpost_ind hpi)]
      simp only [List.length_append]
      omega
    · rw [if_neg hpi]
      by_cases hpre : root ∈ c.fringe.map Puzzle.board
      · rw [if_pos hpre]
        simp only [List.length_append]
        omega
      · rw [if_neg hpre]
        simp only [List.length_append]
        omega

lemma bfsRun_term {root : Board} (n : Nat) : ∀ (c : BfsCfg), BfsInv root c →
    bfsMeasure c root ≤ n → ∃ fuel r c2, bfsRun fuel c = some (r, c2) := by
  induction n using Nat.strong_induction_on with
  | _ n ih =>
    intro c hinv hn
    rcases hstep : bfsStep c with c' | ⟨r', c2⟩
    · have hinv2 := bfsStep_cont_inv hinv hstep
      have hdec := bfsStep_cont_measure hinv hstep
      obtain ⟨fuel, r, c3, hrun⟩ := ih (bfsMeasure c' root) (by omega) c' hinv2 (le_refl _)
      exact ⟨fuel + 1, r, c3, by rw [bfsRun, hstep]; exact hrun⟩
    · exact ⟨1, r', c2, by rw [bfsRun, hstep]⟩

lemma bfsRun_sound {root : Board} : ∀ (fuel : Nat) (c : BfsCfg) (h : List Char)
    (c2 : BfsCfg), BfsInv root c → bfsRun fuel c = some (some h, c2) →
    Reaches root goalBoard h.length ∧ ∀ k, Reaches root goalBoard k → h.length ≤ k
  | 0, c, h, c2, _, hrun => by
    rw [bfsRun] at hrun
    exact absurd hrun (by simp)
  | fuel + 1, c, h, c2, hinv, hrun => by
    rw [bfsRun] at hrun
    rcases hstep : bfsStep c with c' | ⟨r', c'⟩ <;> rw [hstep] at hrun <;> dsimp only at hrun
    · exact bfsRun_sound fuel c' h c2 (bfsStep_cont_inv hinv hstep) hrun
    · injection hrun with h1
      injection h1 with hr hc
      rcases bfsStep_eq_done hstep with ⟨hfr, hrr, _⟩ | ⟨state, fringe, hf, hs, hrr, _⟩
      · rw [hrr] at hr
        exact absurd hr (by simp)
      · rw [hrr] at hr
        injection hr with hr
        subst hr
        have hgoal : state.board = goalBoard := solved_iff.mp hs
        have hmem : state ∈ c.fringe := by
          rw [hf]
          exact List.mem_cons_self _ _
        constructor
        · have h4 := hinv.sound_fringe state hmem
          rwa [hgoal] at h4
        · intro k hk
          exact bfs_pop_min hinv hf k (by rw [hgoal]; exact hk)

lemma bfsRun_exhaust {root : Board} : ∀ (fuel : Nat) (c : BfsCfg) (c2 : BfsCfg),
    BfsInv root c → (∀ q ∈ c.explored, q.solved = false) →
    bfsRun fuel c = some (none, c2) → ∀ m, ¬ Reaches root goalBoard m
  | 0, c, c2, _, _, hrun => by
    rw [bfsRun] at hrun
    exact absurd hrun (by simp)
  | fuel + 1, c, c2, hinv, hnsol, hrun => by
    rw [bfsRun] at hrun
    rcases hstep : bfsStep c with c' | ⟨r', c'⟩ <;> rw [hstep] at hrun <;> dsimp only at hrun
    · refine bfsRun_exhaust fuel c' c2 (bfsStep_cont_inv hinv hstep) ?_ hrun
      rcases bfsStep_eq_cont hstep with ⟨state, fringe, hf, hnsv, rfl⟩
      intro q hq
      rcases mem_addState hq with hq | rfl
      · exact hnsol q hq
      · exact hnsv
    · injection hrun with h1
      injection h1 with hr hc
      rcases bfsStep_eq_done hstep with ⟨hfr, hrr, hcc⟩ | ⟨state, fringe, hf, hs, hrr, hcc⟩
      · intro m hm
        have hall : ∀ b m2, Reaches root b m2 → ∃ q ∈ c.explored, q.board = b := by
          intro b m2 h2
          induction h2 with
          | refl =>
            obtain ⟨q, hq, hqb, _⟩ := hinv.root_expl
            exact ⟨q, hq, hqb⟩
          | tail hreach2 hnb ih =>
            obtain ⟨q, hq, hqb⟩ := ih
            rcases hinv.closure q hq with ⟨q2, hq2, _⟩ | hcl
            · rw [hfr] at hq2
              exact absurd hq2 (by simp)
            · rcases hcl _ (by rw [hqb]; exact hnb) with ⟨q2, hq2, hq2b, _⟩ | ⟨q2, hq2, _, _⟩
              · exact ⟨q2, hq2, hq2b⟩
              · rw [hfr] at hq2
                exact absurd hq2 (by simp)
        obtain ⟨q, hq, hqb⟩ := hall goalBoard m hm
        have hsolved : q.solved = true := solved_iff.mpr hqb
        rw [hnsol q hq] at hsolved
        exact absurd hsolved (by simp)
      · rw [hrr] at hr
        exact absurd hr (by simp)

lemma dfsExpand_spec (state : Puzzle) (explored : List Puzzle) :
    ∀ (moves : List (Nat × Char)) (fr fs : List Puzzle),
      ∃ ns : List Puzzle,
        dfsExpand state explored moves fr fs = (ns.reverse ++ fr, fs ++ ns) ∧
        (∀ q ∈ ns, ∃ ma ∈ moves, q = state.move ma.1 ma.2 ∧
          memBoard explored q.board = false) ∧
        ns.length ≤ moves.length ∧
        (ns.map Puzzle.board).Nodup ∧
        (∀ q ∈ ns, memBoard fs q.board = false)
  | [], fr, fs => ⟨[], by simp [dfsExpand], by simp, by simp, by simp, by simp⟩
  | (pos, action) :: moves, fr, fs => by
    rw [dfsExpand]
    by_cases hg : ¬ memBoard explored (state.move pos action).board = true ∧
        ¬ memBoard fs (state.move pos action).board = true
    · rw [if_pos hg]
      obtain ⟨ns2, heq, hprov, hlen, hnd, hfs⟩ :=
        dfsExpand_spec state explored moves (state.move pos action :: fr)
          (fs ++ [state.move pos action])
      refine ⟨state.move pos action :: ns2, ?_, ?_, ?_, ?_, ?_⟩
      · rw [heq]
        simp
      · intro q hq
        rcases List.mem_cons.mp hq with rfl | hq
        · exact ⟨(pos, action), List.mem_cons_self _ _, rfl, by simpa using hg.1⟩
        · obtain ⟨ma, hma, hqq, hqe⟩ := hprov q hq
          exact ⟨ma, List.mem_cons_of_mem _ hma, hqq, hqe⟩
      · simpa using Nat.succ_le_succ hlen
      · rw [List.map_cons, List.nodup_cons]
        refine ⟨fun hc => ?_, hnd⟩
        rcases List.mem_map.mp hc with ⟨q, hq, hqb⟩
        have hf2 := hfs q hq
        rw [memBoard_append] at hf2
        have h2 : memBoard [state.move pos action] q.board = false :=
          (Bool.or_eq_false_iff.mp hf2).2
        rw [hqb] at h2
        exact (memBoard_false_iff.mp h2) (by simp)
      · intro q hq
        rcases List.mem_cons.mp hq with rfl | hq
        · exact by simpa using hg.2
        · have h3 := hfs q hq
          rw [memBoard_append] at h3
          exact (Bool.or_eq_false_iff.mp h3).1
    · rw [if_neg hg]
      obtain ⟨ns2, heq, hprov, hlen, hnd, hfs⟩ :=
        dfsExpand_spec state explored moves fr fs
      refine ⟨ns2, heq, ?_, by simp only [List.length_cons]; omega, hnd, hfs⟩
      intro q hq
      obtain ⟨ma, hma, hqq, hqe⟩ := hprov q hq
      exact ⟨ma, List.mem_cons_of_mem _ hma, hqq, hqe⟩

/-- The part of the `depth_first_search` loop invariant needed for
termination: validity of every held state, mirroring of `fringe_set` and
the stack, and the popped-states-are-explored discipline (only the root
sits on the stack while already explored). -/
structure DfsTermInv (root : Board) (c : DfsCfg) : Prop where
  fringe_perm : ∀ q ∈ c.fringe, PermOK q
  expl_perm : ∀ q ∈ c.explored, PermOK q
  fringe_nodup : (c.fringe.map Puzzle.board).Nodup
  expl_nodup : (c.explored.map Puzzle.board).Nodup
  fs_nodup : (c.fringe_set.map Puzzle.board).Nodup
  mirror : ∀ bd, memBoard c.fringe_set bd = true ↔ bd ∈ c.fringe.map Puzzle.board
  not_expl : ∀ q ∈ c.fringe, memBoard c.explored q.board = false ∨ q.board = root
  root_expl : memBoard c.explored root = true

lemma dfsTermInv_init {b : Board} (hperm : b.Perm (List.range 9)) :
    DfsTermInv b (dfsInit b) := by
  have hone : ∀ q ∈ [initState b], q = initState b := by
    intro q hq
    simpa using hq
  refine ⟨?_, ?_, by simp [dfsInit], by simp [dfsInit], by simp [dfsInit], ?_, ?_, ?_⟩
  · intro q hq
    rw [hone q hq]
    exact ⟨hperm, rfl⟩
  · intro q hq
    rw [hone q hq]
    exact ⟨hperm, rfl⟩
  · intro bd
    exact memBoard_iff
  · intro q hq
    exact Or.inr (by rw [hone q hq]; rfl)
  · rw [memBoard_iff]
    simp [dfsInit, initState, pyPuzzle]

lemma dfsStep_cont_inv {root : Board} {c c2 : DfsCfg} (hinv : DfsTermInv root c)
    (hstep : dfsStep c = .cont c2) : DfsTermInv root c2 := by
  rcases dfsStep_eq_cont hstep with ⟨state, fringe, hf, hnsv, rfl⟩
  obtain ⟨ns, heq, hprov, hlenn, hndn, hfsn⟩ :=
    dfsExpand_spec state (addState c.explored state) state.possible_moves.reverse fringe
      (removeState c.fringe_set state.board)
  have hfr2 : (dfsExpand state (addState c.explored state) state.possible_moves.reverse
      fringe (removeState c.fringe_set state.board)).1 = ns.reverse ++ fringe := by
    rw [heq]
  have hfs2 : (dfsExpand state (addState c.explored state) state.possible_moves.reverse
      fringe (removeState c.fringe_set state.board)).2 =
      removeState c.fringe_set state.board ++ ns := by
    rw [heq]
  have hstate_mem : state ∈ c.fringe := by
    rw [hf]
    exact List.mem_cons_self _ _
  have hstate_perm : PermOK state := hinv.fringe_perm state hstate_mem
  have hrest_sub : ∀ q ∈ fringe, q ∈ c.fringe := by
    intro q hq
    rw [hf]
    exact List.mem_cons_of_mem _ hq
  have hrest_nodup : (fringe.map Puzzle.board).Nodup ∧
      state.board ∉ fringe.map Puzzle.board := by
    have h2 := hf ▸ hinv.fringe_nodup
    rw [List.map_cons, List.nodup_cons] at h2
    exact ⟨h2.2, h2.1⟩
  have hns_perm : ∀ q ∈ ns, PermOK q := by
    intro q hq
    obtain ⟨ma, hma, hqq, _⟩ := hprov q hq
    rw [hqq]
    exact move_permOK hstate_perm (List.mem_reverse.mp hma)
  have hns_not_expl : ∀ q ∈ ns, memBoard (addState c.explored state) q.board = false := by
    intro q hq
    obtain ⟨_, _, _, hqe⟩ := hprov q hq
    exact hqe
  have hns_rest_disj : ∀ q ∈ ns, q.board ∉ fringe.map Puzzle.board := by
    intro q hq hcontra
    apply memBoard_false_iff.mp (hfsn q hq)
    rw [map_board_removeState hinv.fs_nodup]
    refine ⟨memBoard_iff.mp ((hinv.mirror q.board).mpr ?_), ?_⟩
    · rw [hf, List.map_cons]
      exact List.mem_cons_of_mem _ hcontra
    · intro hcontra2
      rw [hcontra2] at hcontra
      exact hrest_nodup.2 hcontra
  refine ⟨?_, ?_, ?_, ?_, ?_, ?_, ?_, ?_⟩ <;> dsimp only
  · rw [hfr2]
    intro q hq
    rcases List.mem_append.mp hq with hq | hq
    · exact hns_perm q (List.mem_reverse.mp hq)
    · exact hinv.fringe_perm q (hrest_sub q hq)
  · intro q hq
    rcases mem_addState hq with hq | rfl
    · exact hinv.expl_perm q hq
    · exact hstate_perm
  · rw [hfr2, List.map_append, List.nodup_append]
    refine ⟨?_, hrest_nodup.1, ?_⟩
    · rw [List.map_reverse, List.nodup_reverse]
      exact hndn
    · intro bd hbd
      rcases List.mem_map.mp hbd with ⟨q, hq, rfl⟩
      exact hns_rest_disj q (List.mem_reverse.mp hq)
  · exact addState_nodup hinv.expl_nodup
  · rw [hfs2, List.map_append, List.nodup_append]
    refine ⟨(removeState_map_sublist _ _).nodup hinv.fs_nodup, hndn, ?_⟩
    intro bd hbd
    rcases List.mem_map.mp hbd with ⟨q, hq, rfl⟩
    intro hcontra
    rcases List.mem_map.mp hcontra with ⟨q2, hq2, hq2b⟩
    apply memBoard_false_iff.mp (hfsn q2 hq2)
    rw [hq2b]
    exact List.mem_map_of_mem _ hq
  · intro bd
    rw [hfr2, hfs2, memBoard_append, Bool.or_eq_true, List.map_append, List.mem_append,
      List.map_reverse, List.mem_reverse]
    constructor
    · rintro (h1 | h1)
      · right
        have h2 := memBoard_iff.mp h1
        rw [map_board_removeState hinv.fs_nodup] at h2
        have h3 := (hinv.mirror bd).mp (memBoard_iff.mpr h2.1)
        rw [hf, List.map_cons, List.mem_cons] at h3
        rcases h3 with h3 | h3
        · exact absurd h3 h2.2
        · exact h3
      · exact Or.inl (memBoard_iff.mp h1)
    · rintro (h1 | h1)
      · exact Or.inr (memBoard_iff.mpr h1)
      · left
        rw [memBoard_iff, map_board_removeState hinv.fs_nodup]
        refine ⟨memBoard_iff.mp ((hinv.mirror bd).mpr ?_), ?_⟩
        · rw [hf, List.map_cons]
          exact List.mem_cons_of_mem _ h1
        · intro hcontra
          rw [hcontra] at h1
          exact hrest_nodup.2 h1
  · rw [hfr2]
    intro q hq
    rcases List.mem_append.mp hq with hq | hq
    · exact Or.inl (hns_not_expl q (List.mem_reverse.mp hq))
    · rcases hinv.not_expl q (hrest_sub q hq) with h1 | h1
      · left
        rw [memBoard_addState_false]
        refine ⟨h1, ?_⟩
        intro hcontra
        rw [← hcontra] at hrest_nodup
        exact hrest_nodup.2 (List.mem_map_of_mem _ hq)
      · exact Or.inr h1
  · exact memBoard_addState.mpr (Or.inl hinv.root_expl)

/-- Termination measure for DFS, of the same shape as the BFS measure. -/
def dfsMeasure (c : DfsCfg) (root : Board) : Nat :=
  6 * (permBound + 1 - c.explored.length) + c.fringe.length +
    (if root ∈ c.fringe.map Puzzle.board then 6 else 0)

lemma dfsStep_cont_measure {root : Board} {c c2 : DfsCfg} (hinv : DfsTermInv root c)
    (hstep : dfsStep c = .cont c2) : dfsMeasure c2 root < dfsMeasure c root := by
  rcases dfsStep_eq_cont hstep with ⟨state, fringe, hf, hnsv, rfl⟩
  obtain ⟨ns, heq, hprov, hlenn, hndn, hfsn⟩ :=
    dfsExpand_spec state (addState c.explored state) state.possible_moves.reverse fringe
      (removeState c.fringe_set state.board)
  have hfr2 : (dfsExpand state (addState c.explored state) state.possible_moves.reverse
      fringe (removeState c.fringe_set state.board)).1 = ns.reverse ++ fringe := by
    rw [heq]
  have hstate_mem : state ∈ c.fringe := by
    rw [hf]
    exact List.mem_cons_self _ _
  have hrest_nodup : (fringe.map Puzzle.board).Nodup ∧
      state.board ∉ fringe.map Puzzle.board := by
    have h2 := hf ▸ hinv.fringe_nodup
    rw [List.map_cons, List.nodup_cons] at h2
    exact ⟨h2.2, h2.1⟩
  have hroot_expl2 : memBoard (addState c.explored state) root = true :=
    memBoard_addState.mpr (Or.inl hinv.root_expl)
  have hns_ne_root : ∀ q ∈ ns, q.board ≠ root := by
    intro q hq hcontra
    obtain ⟨_, _, _, hqe⟩ := hprov q hq
    rw [hcontra, hroot_expl2] at hqe
    exact absurd hqe (by simp)
  have hexpl_le : c.explored.length ≤ permBound :=
    explored_le_permBound hinv.expl_perm hinv.expl_nodup
  have hns4 : ns.length ≤ 4 := by
    have h2 : state.possible_moves.reverse.length = state.possible_moves.length :=
      List.length_reverse _
    have h3 := possible_moves_length state
    omega
  have hflen : c.fringe.length = fringe.length + 1 := by
    rw [hf]
    rfl
  by_cases hmem : memBoard c.explored state.board = true
  · have hroot : state.board = root := by
      rcases hinv.not_expl state hstate_mem with hne | h
      · rw [hne] at hmem
        exact absurd hmem (by simp)
      · exact h
    have hexpl_eq : addState c.explored state = c.explored := by
      unfold addState
      rw [if_pos hmem]
    have hpre_ind : root ∈ c.fringe.map Puzzle.board := by
      rw [hf, List.map_cons, ← hroot]
      exact List.mem_cons_self _ _
    have hpost_ind : root ∉ (ns.reverse ++ fringe).map Puzzle.board := by
      rw [List.map_append, List.mem_append]
      rintro (h1 | h1)
      · rcases List.mem_map.mp h1 with ⟨q, hq, hqb⟩
        exact hns_ne_root q (List.mem_reverse.mp hq) hqb
      · rw [← hroot] at h1
        exact hrest_nodup.2 h1
    rw [dfsMeasure, dfsMeasure]
    dsimp only
    rw [hfr2, hexpl_eq, if_neg hpost_ind, if_pos hpre_ind]
    simp only [List.length_append, List.length_reverse]
    omega
  · have hexpl_len : (addState c.explored state).length = c.explored.length + 1 := by
      rw [addState_length, if_neg hmem]
    have hpost_ind : root ∈ (ns.reverse ++ fringe).map Puzzle.board →
        root ∈ c.fringe.map Puzzle.board := by
      rw [List.map_append, List.mem_append]
      rintro (h1 | h1)
      · rcases List.mem_map.mp h1 with ⟨q, hq, hqb⟩
        exact absurd hqb (hns_ne_root q (List.mem_reverse.mp hq))
      · rw [hf, List.map_cons]
        exact List.mem_cons_of_mem _ h1
    rw [dfsMeasure, dfsMeasure]
    dsimp only
    rw [hfr2, hexpl_len]
    by_cases hpi : root ∈ (ns.reverse ++ fringe).map Puzzle.board
    · rw [if_pos hpi, if_pos (hpost_ind hpi)]
      simp only [List.length_append, List.length_reverse]
      omega
    · rw [if_neg hpi]
      by_cases hpre : root ∈ c.fringe.map Puzzle.board
      · rw [if_pos hpre]
        simp only [List.length_append, List.length_reverse]
        omega
      · rw [if_neg hpre]
        simp only [List.length_append, List.length_reverse]
        omega

lemma dfsRun_term {root : Board} (n : Nat) : ∀ (c : DfsCfg), DfsTermInv root c →
    dfsMeasure c root ≤ n → ∃ fuel r c2, dfsRun fuel c = some (r, c2) := by
  induction n using Nat.strong_induction_on with
  | _ n ih =>
    intro c hinv hn
    rcases hstep : dfsStep c with c' | ⟨r', c2⟩
    · have hinv2 := dfsStep_cont_inv hinv hstep
      have hdec := dfsStep_cont_measure hinv hstep
      obtain ⟨fuel, r, c3, hrun⟩ := ih (dfsMeasure c' root) (by omega) c' hinv2 (le_refl _)
      exact ⟨fuel + 1, r, c3, by rw [dfsRun, hstep]; exact hrun⟩
    · exact ⟨1, r', c2, by rw [dfsRun, hstep]⟩

lemma dictInsert_boards (fringe : List (Puzzle × Int)) (k : Puzzle) (v : Int) :
    ((dictInsert fringe k v).map fun e => e.1.board) =
      if fringe.any (fun e => e.1.board == k.board) then fringe.map fun e => e.1.board
      else (fringe.map fun e => e.1.board) ++ [k.board] := by
  unfold dictInsert
  split_ifs with h
  · rw [List.map_map]
    apply List.map_congr_left
    intro e _
    by_cases hb : e.1.board = k.board
    · simp [Function.comp, hb]
    · simp [Function.comp, beq_eq_false_iff_ne.mpr hb]
  · simp

lemma dictInsert_length (fringe : List (Puzzle × Int)) (k : Puzzle) (v : Int) :
    (dictInsert fringe k v).length ≤ fringe.length + 1 := by
  unfold dictInsert
  split_ifs
  · rw [List.length_map]
    omega
  · simp

lemma dictInsert_nodup {fringe : List (Puzzle × Int)} {k : Puzzle} {v : Int}
    (hn : (fringe.map fun e => e.1.board).Nodup) :
    ((dictInsert fringe k v).map fun e => e.1.board).Nodup := by
  rw [dictInsert_boards]
  split_ifs with h
  · exact hn
  · rw [List.nodup_append]
    refine ⟨hn, List.nodup_singleton _, ?_⟩
    intro x hx hx2
    rcases List.mem_map.mp hx with ⟨e, he, rfl⟩
    rw [List.mem_singleton] at hx2
    exact h (List.any_eq_true.mpr ⟨e, he, beq_iff_eq.mpr hx2⟩)

lemma dictInsert_keys {fringe : List (Puzzle × Int)} {k : Puzzle} {v : Int}
    {e : Puzzle × Int} (he : e ∈ dictInsert fringe k v) :
    (∃ f ∈ fringe, e.1 = f.1) ∨ e = (k, v) := by
  unfold dictInsert at he
  split_ifs at he with hp
  · rcases List.mem_map.mp he with ⟨f, hf, hfe⟩
    left
    refine ⟨f, hf, ?_⟩
    by_cases hb : f.1.board = k.board
    · simp only [hb, beq_self_eq_true, if_true] at hfe
      rw [← hfe]
    · simp only [beq_eq_false_iff_ne.mpr hb, Bool.false_eq_true, if_false] at hfe
      rw [← hfe]
  · rcases List.mem_append.mp he with hf | hf
    · exact Or.inl ⟨e, hf, rfl⟩
    · exact Or.inr (List.mem_singleton.mp hf)

lemma dictPop_sublist (fringe : List (Puzzle × Int)) (b : Board) :
    (dictPop fringe b).Sublist fringe := List.eraseP_sublist _

lemma mem_dictPop_ne : ∀ {fringe : List (Puzzle × Int)} {b : Board},
    (fringe.map fun e => e.1.board).Nodup → b ∈ (fringe.map fun e => e.1.board) →
    ∀ e ∈ dictPop fringe b, e ∈ fringe ∧ e.1.board ≠ b
  | [], b, _, hb => absurd hb (by simp)
  | f :: fs, b, hn, hb => by
    rw [List.map_cons, List.nodup_cons] at hn
    intro e he
    rw [dictPop, List.eraseP_cons] at he
    by_cases hf : f.1.board = b
    · rw [beq_iff_eq.mpr hf] at he
      simp only [cond_true] at he
      refine ⟨List.mem_cons_of_mem _ he, ?_⟩
      intro hcontra
      apply hn.1
      rw [hf, ← hcontra]
      exact List.mem_map_of_mem _ he
    · rw [beq_eq_false_iff_ne.mpr hf] at he
      simp only [cond_false] at he
      rcases List.mem_cons.mp he with rfl | he
      · exact ⟨List.mem_cons_self _ _, hf⟩
      · have hb2 : b ∈ fs.map fun e => e.1.board := by
          rw [List.map_cons, List.mem_cons] at hb
          rcases hb with hb | hb
          · exact absurd hb.symm hf
          · exact hb
        have h2 := mem_dictPop_ne hn.2 hb2 e he
        exact ⟨List.mem_cons_of_mem _ h2.1, h2.2⟩

lemma dictPop_length {fringe : List (Puzzle × Int)} {b : Board}
    (hb : b ∈ fringe.map fun e => e.1.board) :
    (dictPop fringe b).length + 1 = fringe.length := by
  rcases List.mem_map.mp hb with ⟨e, he, heb⟩
  have h1 : (dictPop fringe b).length = fringe.length - 1 :=
    List.length_eraseP_of_mem he (beq_iff_eq.mpr heb)
  have h2 : 0 < fringe.length := List.length_pos.mpr (List.ne_nil_of_mem he)
  omega

lemma astarExpand_term_spec (state : Puzzle) (explored : List Puzzle) :
    ∀ (moves : List (Nat × Char)) (fringe : List (Puzzle × Int)),
      (astarExpand state explored moves fringe).length ≤ fringe.length + moves.length ∧
      ((fringe.map fun e => e.1.board).Nodup →
        ((astarExpand state explored moves fringe).map fun e => e.1.board).Nodup) ∧
      (∀ e ∈ astarExpand state explored moves fringe,
        (∃ f ∈ fringe, e.1 = f.1) ∨ (∃ ma ∈ moves, e.1 = state.move ma.1 ma.2 ∧
          memBoard explored e.1.board = false))
  | [], fringe => ⟨by simp [astarExpand], fun h => h, fun e he => Or.inl ⟨e, he, rfl⟩⟩
  | (pos, action) :: moves, fringe => by
    rw [astarExpand]
    by_cases hg : ¬ memBoard explored (state.move pos action).board = true
    · rw [if_pos hg]
      obtain ⟨hlen, hnd, hmem⟩ := astarExpand_term_spec state explored moves
        (dictInsert fringe (state.move pos action) (manhattan (state.move pos action) + 1))
      refine ⟨?_, ?_, ?_⟩
      · have h2 := dictInsert_length fringe (state.move pos action)
          (manhattan (state.move pos action) + 1)
        simp only [List.length_cons]
        omega
      · intro hn
        exact hnd (dictInsert_nodup hn)
      · intro e he
        rcases hmem e he with ⟨f, hf, hef⟩ | ⟨ma, hma, hemv, hee⟩
        · rcases dictInsert_keys hf with ⟨f2, hf2, hff⟩ | hkv
          · exact Or.inl ⟨f2, hf2, hef.trans hff⟩
          · right
            refine ⟨(pos, action), List.mem_cons_self _ _, ?_, ?_⟩
            · rw [hef, hkv]
            · rw [hef, hkv]
              exact by simpa using hg
        · exact Or.inr ⟨ma, List.mem_cons_of_mem _ hma, hemv, hee⟩
    · rw [if_neg hg]
      obtain ⟨hlen, hnd, hmem⟩ := astarExpand_term_spec state explored moves fringe
      refine ⟨by simp only [List.length_cons]; omega, hnd, ?_⟩
      intro e he
      rcases hmem e he with h1 | ⟨ma, hma, hemv, hee⟩
      · exact Or.inl h1
      · exact Or.inr ⟨ma, List.mem_cons_of_mem _ hma, hemv, hee⟩

/-- The part of the `a_star` loop invariant needed for termination:
validity of every held state, distinctness of the fringe dict's keys, and
the fact that a fringe key's board is unexplored unless it is the root. -/
structure AstarTermInv (root : Board) (c : AstarCfg) : Prop where
  fringe_perm : ∀ e ∈ c.fringe, PermOK e.1
  expl_perm : ∀ q ∈ c.explored, PermOK q
  fringe_nodup : (c.fringe.map fun e => e.1.board).Nodup
  expl_nodup : (c.explored.map Puzzle.board).Nodup
  not_expl : ∀ e ∈ c.fringe, memBoard c.explored e.1.board = false ∨ e.1.board = root
  root_expl : memBoard c.explored root = true

lemma astarTermInv_init {b : Board} (hperm : b.Perm (List.range 9)) :
    AstarTermInv b (astarInit b) := by
  refine ⟨?_, ?_, by simp [astarInit], by simp [astarInit], ?_, ?_⟩
  · intro e he
    have h1 : e = (initState b, manhattan (initState b)) := by simpa [astarInit] using he
    rw [h1]
    exact ⟨hperm, rfl⟩
  · intro q hq
    have h1 : q = initState b := by simpa [astarInit] using hq
    rw [h1]
    exact ⟨hperm, rfl⟩
  · intro e he
    have h1 : e = (initState b, manhattan (initState b)) := by simpa [astarInit] using he
    exact Or.inr (by rw [h1]; rfl)
  · rw [memBoard_iff]
    simp [astarInit, initState, pyPuzzle]

lemma astarStep_cont_inv {root : Board} {c c2 : AstarCfg} (hinv : AstarTermInv root c)
    (hstep : astarStep c = .cont c2) : AstarTermInv root c2 := by
  rcases astarStep_eq_cont hstep with ⟨s, hsel, hns, rfl⟩
  have hs_mem : s ∈ c.fringe := selectMin_mem hsel
  have hs_perm : PermOK s.1 := hinv.fringe_perm s hs_mem
  have hsb_mem : s.1.board ∈ c.fringe.map fun e => e.1.board := List.mem_map_of_mem _ hs_mem
  have hpop : ∀ e ∈ dictPop c.fringe s.1.board, e ∈ c.fringe ∧ e.1.board ≠ s.1.board :=
    mem_dictPop_ne hinv.fringe_nodup hsb_mem
  have hpop_nodup : ((dictPop c.fringe s.1.board).map fun e => e.1.board).Nodup :=
    ((dictPop_sublist _ _).map _).nodup hinv.fringe_nodup
  obtain ⟨hlen, hnd, hmem⟩ := astarExpand_term_spec s.1 (addState c.explored s.1)
    s.1.possible_moves (dictPop c.fringe s.1.board)
  refine ⟨?_, ?_, ?_, ?_, ?_, ?_⟩ <;> dsimp only [astarExpanded]
  · intro e he
    rcases hmem e he with ⟨f, hf, hef⟩ | ⟨ma, hma, hemv, _⟩
    · rw [hef]
      exact hinv.fringe_perm f (hpop f hf).1
    · rw [hemv]
      exact move_permOK hs_perm hma
  · intro q hq
    rcases mem_addState hq with hq | rfl
    · exact hinv.expl_perm q hq
    · exact hs_perm
  · exact hnd hpop_nodup
  · exact addState_nodup hinv.expl_nodup
  · intro e he
    rcases hmem e he with ⟨f, hf, hef⟩ | ⟨_, _, _, hee⟩
    · obtain ⟨hf_mem, hf_ne⟩ := hpop f hf
      rcases hinv.not_expl f hf_mem with h1 | h1
      · left
        rw [hef, memBoard_addState_false]
        exact ⟨h1, hf_ne⟩
      · right
        rw [hef]
        exact h1
    · exact Or.inl hee
  · exact memBoard_addState.mpr (Or.inl hinv.root_expl)

/-- Termination measure for the greedy informed search, of the same shape
as the BFS measure. -/
def astarMeasure (c : AstarCfg) (root : Board) : Nat :=
  6 * (permBound + 1 - c.explored.length) + c.fringe.length +
    (if root ∈ c.fringe.map (fun e => e.1.board) then 6 else 0)

lemma astarStep_cont_measure {root : Board} {c c2 : AstarCfg} (hinv : AstarTermInv root c)
    (hstep : astarStep c = .cont c2) : astarMeasure c2 root < astarMeasure c root := by
  rcases astarStep_eq_cont hstep with ⟨s, hsel, hns, rfl⟩
  have hs_mem : s ∈ c.fringe := selectMin_mem hsel
  have hsb_mem : s.1.board ∈ c.fringe.map fun e => e.1.board := List.mem_map_of_mem _ hs_mem
  have hpop : ∀ e ∈ dictPop c.fringe s.1.board, e ∈ c.fringe ∧ e.1.board ≠ s.1.board :=
    mem_dictPop_ne hinv.fringe_nodup hsb_mem
  obtain ⟨hlen, hnd, hmem⟩ := astarExpand_term_spec s.1 (addState c.explored s.1)
    s.1.possible_moves (dictPop c.fringe s.1.board)
  have hroot_expl2 : memBoard (addState c.explored s.1) root = true :=
    memBoard_addState.mpr (Or.inl hinv.root_expl)
  have hexpl_le : c.explored.length ≤ permBound :=
    explored_le_permBound hinv.expl_perm hinv.expl_nodup
  have hpm4 := possible_moves_length s.1
  have hpoplen := dictPop_length hsb_mem
  have hpost_root : root ∈ ((astarExpand s.1 (addState c.explored s.1) s.1.possible_moves
      (dictPop c.fringe s.1.board)).map fun e => e.1.board) →
      root ∈ (c.fringe.map fun e => e.1.board) ∧ root ≠ s.1.board := by
    intro h1
    rcases List.mem_map.mp h1 with ⟨e, he, rfl⟩
    rcases hmem e he with ⟨f, hf, hef⟩ | ⟨_, _, _, hee⟩
    · obtain ⟨hf_mem, hf_ne⟩ := hpop f hf
      rw [hef]
      exact ⟨List.mem_map_of_mem _ hf_mem, hf_ne⟩
    · exfalso
      rw [hroot_expl2] at hee
      exact absurd hee (by simp)
  rw [astarMeasure, astarMeasure]
  dsimp only [astarExpanded]
  by_cases hmemb : memBoard c.explored s.1.board = true
  · have hroot : s.1.board = root := by
      rcases hinv.not_expl s hs_mem with hne | h
      · rw [hne] at hmemb
        exact absurd hmemb (by simp)
      · exact h
    have hexpl_eq : addState c.explored s.1 = c.explored := by
      unfold addState
      rw [if_pos hmemb]
    have hpre_ind : root ∈ c.fringe.map fun e => e.1.board := by
      rw [← hroot]
      exact hsb_mem
    have hpost_ind : root ∉ ((astarExpand s.1 (addState c.explored s.1) s.1.possible_moves
        (dictPop c.fringe s.1.board)).map fun e => e.1.board) := by
      intro h1
      exact (hpost_root h1).2 hroot.symm
    have hexpl_len_eq : (addState c.explored s.1).length = c.explored.length := by
      rw [hexpl_eq]
    rw [hexpl_len_eq, if_neg hpost_ind, if_pos hpre_ind]
    omega
  · have hexpl_len : (addState c.explored s.1).length = c.explored.length + 1 := by
      rw [addState_length, if_neg hmemb]
    rw [hexpl_len]
    by_cases hpi : root ∈ ((astarExpand s.1 (addState c.explored s.1) s.1.possible_moves
        (dictPop c.fringe s.1.board)).map fun e => e.1.board)
    · rw [if_pos hpi, if_pos (hpost_root hpi).1]
      omega
    · rw [if_neg hpi]
      by_cases hpre : root ∈ c.fringe.map fun e => e.1.board
      · rw [if_pos hpre]
        omega
      · rw [if_neg hpre]
        omega

lemma astarRun_term {root : Board} (n : Nat) : ∀ (c : AstarCfg), AstarTermInv root c →
    astarMeasure c root ≤ n → ∃ fuel r c2, astarRun fuel c = some (r, c2) := by
  induction n using Nat.strong_induction_on with
  | _ n ih =>
    intro c hinv hn
    rcases hstep : astarStep c with c' | ⟨r', c2⟩
    · have hinv2 := astarStep_cont_inv hinv hstep
      have hdec := astarStep_cont_measure hinv hstep
      obtain ⟨fuel, r, c3, hrun⟩ := ih (astarMeasure c' root) (by omega) c' hinv2 (le_refl _)
      exact ⟨fuel + 1, r, c3, by rw [astarRun, hstep]; exact hrun⟩
    · exact ⟨1, r', c2, by rw [astarRun, hstep]⟩

end Driver

namespace Driver

/-- C2: the solvability check returns true exactly when the number of
inversions (unordered pairs of non-blank values whose larger member appears
earlier in the flattened board) is even — proved for every board, hence in
particular for every permutation of `0..WIDTH^2-1` — and on the board
`1,2,3,4,5,6,8,7,0` it returns false. -/
theorem solvable_iff_even_inversions :
    (∀ b : Board, solvable b = true ↔ inversionCount b % 2 = 0) ∧
    solvable [1, 2, 3, 4, 5, 6, 8, 7, 0] = false := by
  constructor
  · intro b
    simp only [solvable, solvable_countP, beq_iff_eq]
  · decide

/-- C3: for a state with a 3x3 board and an in-range hole, the move
generator yields exactly the valid moves, in the fixed order Up, Down,
Left, Right (each present iff its boundary condition holds: a full row
above / below for the vertical moves, the hole off the leftmost /
rightmost column for the horizontal ones), and hence yields at most four
pairs.  The generator is a function of the state alone, so restartability
and absence of side effects are intrinsic to the model. -/
theorem possible_moves_characterization (p : Puzzle)
    (hlen : p.board.length = 9) (hhole : p.hole < 9) :
    p.possible_moves =
      (if 3 ≤ p.hole then [(p.hole - 3, 'U')] else []) ++
      (if p.hole + 3 < 9 then [(p.hole + 3, 'D')] else []) ++
      (if p.hole % 3 ≠ 0 then [(p.hole - 1, 'L')] else []) ++
      (if p.hole % 3 ≠ 2 then [(p.hole + 1, 'R')] else []) ∧
    p.possible_moves.length ≤ 4 := by
  refine ⟨possible_moves_eq p hlen hhole, ?_⟩
  rw [possible_moves_eq p hlen hhole]
  split_ifs <;> simp

/-- Witness for C3 at the solved board: the hypotheses hold and the
generator yields exactly Down and Right. -/
theorem possible_moves_characterization_witness :
    (initState (List.range 9)).board.length = 9 ∧ (initState (List.range 9)).hole < 9 ∧
    ((initState (List.range 9)).possible_moves =
      (if 3 ≤ (initState (List.range 9)).hole then [((initState (List.range 9)).hole - 3, 'U')] else []) ++
      (if (initState (List.range 9)).hole + 3 < 9 then [((initState (List.range 9)).hole + 3, 'D')] else []) ++
      (if (initState (List.range 9)).hole % 3 ≠ 0 then [((initState (List.range 9)).hole - 1, 'L')] else []) ++
      (if (initState (List.range 9)).hole % 3 ≠ 2 then [((initState (List.range 9)).hole + 1, 'R')] else []) ∧
    (initState (List.range 9)).possible_moves.length ≤ 4) :=
  ⟨by decide, by decide, possible_moves_characterization _ (by decide) (by decide)⟩

/-- C4: for a data-model state (3x3 board, in-range hole pointing at the
blank) and a generator-yielded move, `Puzzle.move` produces a state whose
board is the input board with the entries at the hole and the destination
swapped, whose hole is the destination, and whose history is the input
history with the action appended.  The input state is a value and is never
mutated; the theorem characterises the constructed state. -/
theorem move_applies_swap (p : Puzzle) (dst : Nat) (a : Char)
    (hlen : p.board.length = 9) (hhole : p.hole < 9)
    (hzero : p.board.get? p.hole = some 0)
    (hmem : (dst, a) ∈ p.possible_moves) :
    (∀ n, (p.move dst a).board.get? n =
        if n = p.hole then p.board.get? dst
        else if n = dst then p.board.get? p.hole
        else p.board.get? n) ∧
    (p.move dst a).hole = dst ∧
    (p.move dst a).hist = p.hist ++ [a] := by
  obtain ⟨hdlt, hdne⟩ := possible_moves_dst hlen hhole hmem
  refine ⟨?_, move_hole_eq p dst a hlen hhole hzero hdlt hdne, rfl⟩
  intro n
  rw [move_board]
  exact swapIdx_get? p.board n (by rw [hlen]; exact hhole) (by rw [hlen]; exact hdlt)
    (fun h => hdne h.symm)

/-- Witness for C4 at the board `1,0,2,3,4,5,6,7,8` with the yielded move
`(0, 'L')`. -/
theorem move_applies_swap_witness :
    ((initState [1, 0, 2, 3, 4, 5, 6, 7, 8]).move 0 'L').board.get? 0 =
      (if (0 : Nat) = (initState [1, 0, 2, 3, 4, 5, 6, 7, 8]).hole then
        (initState [1, 0, 2, 3, 4, 5, 6, 7, 8]).board.get? 0
      else if (0 : Nat) = 0 then
        (initState [1, 0, 2, 3, 4, 5, 6, 7, 8]).board.get? (initState [1, 0, 2, 3, 4, 5, 6, 7, 8]).hole
      else (initState [1, 0, 2, 3, 4, 5, 6, 7, 8]).board.get? 0) ∧
    ((initState [1, 0, 2, 3, 4, 5, 6, 7, 8]).move 0 'L').hole = 0 ∧
    ((initState [1, 0, 2, 3, 4, 5, 6, 7, 8]).move 0 'L').hist =
      (initState [1, 0, 2, 3, 4, 5, 6, 7, 8]).hist ++ ['L'] :=
  ⟨(move_applies_swap _ 0 'L' (by decide) (by decide) (by decide) (by decide)).1 0,
   (move_applies_swap _ 0 'L' (by decide) (by decide) (by decide) (by decide)).2.1,
   (move_applies_swap _ 0 'L' (by decide) (by decide) (by decide) (by decide)).2.2⟩

/-- C5: a state whose board is a permutation of `0..WIDTH^2-1` and whose
hole is the board index of the blank keeps both properties under any
generator-yielded move. -/
theorem move_preserves_invariant (p : Puzzle)
    (hperm : p.board.Perm (List.range (WIDTH ^ 2)))
    (hhole : p.hole = p.board.indexOf 0)
    (dst : Nat) (a : Char) (hmem : (dst, a) ∈ p.possible_moves) :
    (p.move dst a).board.Perm (List.range (WIDTH ^ 2)) ∧
    (p.move dst a).hole = (p.move dst a).board.indexOf 0 :=
  move_permOK ⟨hperm, hhole⟩ hmem

/-- Witness for C5 at the board `1,0,2,3,4,5,6,7,8` with the yielded move
`(0, 'L')`. -/
theorem move_preserves_invariant_witness :
    ((initState [1, 0, 2, 3, 4, 5, 6, 7, 8]).move 0 'L').board.Perm (List.range (WIDTH ^ 2)) ∧
    ((initState [1, 0, 2, 3, 4, 5, 6, 7, 8]).move 0 'L').hole =
      ((initState [1, 0, 2, 3, 4, 5, 6, 7, 8]).move 0 'L').board.indexOf 0 :=
  move_preserves_invariant _ (by decide) (by decide) 0 'L' (by decide)

/-- C6: from a data-model state, after any generator-yielded move the
inverse move (Up and Down swapped, Left and Right swapped) targeting the
old hole is itself yielded by the generator of the new state, and applying
it restores the original board (only the histories differ). -/
theorem move_reversible (p : Puzzle)
    (hperm : p.board.Perm (List.range (WIDTH ^ 2)))
    (hhole : p.hole = p.board.indexOf 0)
    (dst : Nat) (a : Char) (hmem : (dst, a) ∈ p.possible_moves) :
    (p.hole, inverseAction a) ∈ (p.move dst a).possible_moves ∧
    ((p.move dst a).move p.hole (inverseAction a)).board = p.board := by
  have hlen : p.board.length = 9 := by
    have h := hperm.length_eq
    simpa [WIDTH] using h
  have hmem0 : 0 ∈ p.board := hperm.mem_iff.mpr (by simp [WIDTH])
  have hhlt : p.hole < 9 := by
    rw [hhole, ← hlen]
    exact List.indexOf_lt_length.mpr hmem0
  have hzero : p.board.get? p.hole = some 0 := by
    rw [hhole]
    exact List.indexOf_get? hmem0
  obtain ⟨hdlt, hdne⟩ := possible_moves_dst hlen hhlt hmem
  have hi : p.hole < p.board.length := by rw [hlen]; exact hhlt
  have hj : dst < p.board.length := by rw [hlen]; exact hdlt
  have hqhole : (p.move dst a).hole = dst :=
    move_hole_eq p dst a hlen hhlt hzero hdlt hdne
  have hqlen : (p.move dst a).board.length = 9 := by
    rw [move_board, swapIdx_length]
    exact hlen
  constructor
  · rw [possible_moves_eq _ hqlen (by rw [hqhole]; exact hdlt), hqhole]
    rcases possible_moves_cases hlen hhlt hmem with
      ⟨ha, h1, h2⟩ | ⟨ha, h1, h2⟩ | ⟨ha, h1, h2⟩ | ⟨ha, h1, h2⟩
    · subst ha
      refine List.mem_append.mpr (Or.inl (List.mem_append.mpr (Or.inl
        (List.mem_append.mpr (Or.inr ?_)))))
      rw [if_pos (by omega)]
      simp only [List.mem_singleton, Prod.mk.injEq, inverseAction]
      exact ⟨by omega, trivial⟩
    · subst ha
      refine List.mem_append.mpr (Or.inl (List.mem_append.mpr (Or.inl
        (List.mem_append.mpr (Or.inl ?_)))))
      rw [if_pos (by omega)]
      simp only [List.mem_singleton, Prod.mk.injEq, inverseAction]
      exact ⟨by omega, trivial⟩
    · subst ha
      refine List.mem_append.mpr (Or.inr ?_)
      rw [if_pos (by omega)]
      simp only [List.mem_singleton, Prod.mk.injEq, inverseAction]
      exact ⟨by omega, trivial⟩
    · subst ha
      refine List.mem_append.mpr (Or.inl (List.mem_append.mpr (Or.inr ?_)))
      rw [if_pos (by omega)]
      simp only [List.mem_singleton, Prod.mk.injEq, inverseAction]
      exact ⟨by omega, trivial⟩
  · rw [move_board ((p.move dst a)) p.hole (inverseAction a), hqhole, move_board]
    exact swapIdx_swapIdx p.board hi hj (fun h => hdne h.symm)

/-- Witness for C6 at the board `1,0,2,3,4,5,6,7,8` with the yielded move
`(0, 'L')`. -/
theorem move_reversible_witness :
    ((initState [1, 0, 2, 3, 4, 5, 6, 7, 8]).hole, inverseAction 'L') ∈
      ((initState [1, 0, 2, 3, 4, 5, 6, 7, 8]).move 0 'L').possible_moves ∧
    (((initState [1, 0, 2, 3, 4, 5, 6, 7, 8]).move 0 'L').move
        (initState [1, 0, 2, 3, 4, 5, 6, 7, 8]).hole (inverseAction 'L')).board =
      (initState [1, 0, 2, 3, 4, 5, 6, 7, 8]).board :=
  move_reversible _ (by decide) (by decide) 0 'L' (by decide)

/-- Counterexample to C7 as stated: it is not true that every fringe entry
ever present in a_star carries score `manhattan + 1`.  At the root
configuration for the board `1,0,2,3,4,5,6,7,8` the fringe holds the root
with score `manhattan(root)`, not `manhattan(root) + 1` (the source seeds
`fringe = {self.state: heuristic(self.state)}` without the `+ 1`). -/
theorem astar_root_score_counterexample :
    ¬ AllFringeScoresPlusOne [1, 0, 2, 3, 4, 5, 6, 7, 8] := by
  intro h
  have h2 := h (astarInit [1, 0, 2, 3, 4, 5, 6, 7, 8]) Relation.ReflTransGen.refl
    (initState [1, 0, 2, 3, 4, 5, 6, 7, 8], manhattan (initState [1, 0, 2, 3, 4, 5, 6, 7, 8]))
    (List.mem_singleton.mpr rfl)
  simp only at h2
  omega

/-- C7, amended: in every configuration the a_star loop reaches, each
fringe entry carries score `manhattan + 1` except that the root entry
carries its seeded score `manhattan` without the `+ 1`; each iteration's
`min(fringe, key=fringe.get)` selects an entry of minimal score; and the
expansion writes exactly `manhattan + 1` for every successor it inserts or
overwrites (entries of the expanded fringe are old entries or carry
`manhattan + 1`). -/
theorem astar_fringe_scores (root : Board) (c : AstarCfg)
    (hreach : astarReaches (astarInit root) c) :
    FringeScoresOk root c ∧
    (∀ s, selectMin c.fringe = some s → ∀ e ∈ c.fringe, s.2 ≤ e.2) ∧
    (∀ state explored moves fringe e, e ∈ astarExpand state explored moves fringe →
      e ∈ fringe ∨ e.2 = manhattan e.1 + 1) := by
  refine ⟨?_, fun s hsel e he => selectMin_le hsel e he,
    fun state explored moves fringe e he => astarExpand_scores state explored moves fringe e he⟩
  induction hreach with
  | refl =>
    intro e he
    rw [List.mem_singleton.mp he]
    exact Or.inr ⟨rfl, rfl⟩
  | tail hsteps hstep ih => exact astarStep_scores hstep ih

/-- Witness for the amended C7 at the root configuration of the board
`1,0,2,3,4,5,6,7,8`: its single fringe entry satisfies the score
disjunction. -/
theorem astar_fringe_scores_witness :
    (initState [1, 0, 2, 3, 4, 5, 6, 7, 8],
        manhattan (initState [1, 0, 2, 3, 4, 5, 6, 7, 8])).2 =
      manhattan (initState [1, 0, 2, 3, 4, 5, 6, 7, 8],
        manhattan (initState [1, 0, 2, 3, 4, 5, 6, 7, 8])).1 + 1 ∨
    ((initState [1, 0, 2, 3, 4, 5, 6, 7, 8],
        manhattan (initState [1, 0, 2, 3, 4, 5, 6, 7, 8])).1 =
      initState [1, 0, 2, 3, 4, 5, 6, 7, 8] ∧
     (initState [1, 0, 2, 3, 4, 5, 6, 7, 8],
        manhattan (initState [1, 0, 2, 3, 4, 5, 6, 7, 8])).2 =
      manhattan (initState [1, 0, 2, 3, 4, 5, 6, 7, 8])) :=
  (astar_fringe_scores [1, 0, 2, 3, 4, 5, 6, 7, 8] _ Relation.ReflTransGen.refl).1 _
    (List.mem_singleton.mpr rfl)

/-- Counterexample to C8 as stated: on the already-solved board, BFS pops
the root (one pop, recorded in the ghost trace), returns its history
before the `nodes_expanded += 1` line, and terminates with
`nodes_expanded = 0` while one pop — the goal pop — was performed, so
`nodes_expanded` does not equal the number of pops including the goal pop. -/
theorem nodes_expanded_counterexample :
    bfsRun 1 (bfsInit (List.range 9)) =
      some (some [], { fringe := [], explored := [initState (List.range 9)],
                       fringe_set := [], nodes_expanded := 0, pops := [List.range 9] }) ∧
    (0 : Nat) ≠ [List.range 9].length := ⟨by decide, by decide⟩

/-- C8, amended: in each of the four strategies `nodes_expanded` counts
exactly the non-goal pops: whenever a run terminates, the number of pops
performed equals `nodes_expanded` plus one exactly when a solution was
returned (the goal pop is not counted), and equals `nodes_expanded` on
frontier exhaustion. -/
theorem nodes_expanded_counts_pops (b : Board) :
    (∀ fuel r c, bfsRun fuel (bfsInit b) = some (r, c) →
      c.pops.length = c.nodes_expanded + (if r.isSome then 1 else 0)) ∧
    (∀ fuel r c, dfsRun fuel (dfsInit b) = some (r, c) →
      c.pops.length = c.nodes_expanded + (if r.isSome then 1 else 0)) ∧
    (∀ fuel r c, astarRun fuel (astarInit b) = some (r, c) →
      c.pops.length = c.nodes_expanded + (if r.isSome then 1 else 0)) ∧
    (∀ fuel limit r c, idaRun fuel (astarInit b) limit = some (r, c) →
      c.pops.length = c.nodes_expanded + (if r.isSome then 1 else 0)) :=
  ⟨fun fuel r c h => bfsRun_pops fuel _ r c h rfl,
   fun fuel r c h => dfsRun_pops fuel _ r c h rfl,
   fun fuel r c h => astarRun_pops fuel _ r c h rfl,
   fun fuel limit r c h => idaRun_pops fuel _ limit r c h rfl⟩

/-- Witness for the amended C8: BFS on the solved board performs one pop,
returns a solution, and ends with `nodes_expanded = 0`. -/
theorem nodes_expanded_counts_pops_witness :
    ({ fringe := [], explored := [initState (List.range 9)], fringe_set := [],
        nodes_expanded := 0, pops := [List.range 9] } : BfsCfg).pops.length =
      ({ fringe := [], explored := [initState (List.range 9)], fringe_set := [],
          nodes_expanded := 0, pops := [List.range 9] } : BfsCfg).nodes_expanded +
        (if (some ([] : List Char)).isSome then 1 else 0) :=
  (nodes_expanded_counts_pops (List.range 9)).1 1 (some []) _ (by decide)

/-- C10: for every root board, `ida_star` (started, as in the source, with
`limit = 0` on the same initial frontier and explored set as `a_star`)
terminates exactly when `a_star` terminates, with the same returned value
(`some history` or frontier exhaustion `none`) and the same final
configuration — in particular the same ghost `pops` trace, i.e. the same
sequence of popped states, and the same `nodes_expanded`.  The depth limit
only delays pops: a configuration whose minimum entry is deeper than the
limit continues unchanged with `limit + 1` until the pop happens. -/
theorem ida_star_equiv_a_star (b : Board) :
    (∀ fuel r c, astarRun fuel (astarInit b) = some (r, c) →
      ∃ fuel2, idaRun fuel2 (astarInit b) 0 = some (r, c)) ∧
    (∀ fuel limit r c, idaRun fuel (astarInit b) limit = some (r, c) →
      ∃ fuel2, astarRun fuel2 (astarInit b) = some (r, c)) :=
  ⟨fun fuel r c h => astarRun_to_idaRun fuel _ r c h 0,
   fun fuel limit r c h => idaRun_to_astarRun fuel _ limit r c h⟩

/-- Witness for C10 on the solved board: a_star returns the empty history
after one pop, and ida_star therefore returns the identical result and
final configuration. -/
theorem ida_star_equiv_a_star_witness :
    ∃ fuel2, idaRun fuel2 (astarInit (List.range 9)) 0 =
      some (some [], { fringe := [], explored := [initState (List.range 9)],
                       nodes_expanded := 0, pops := [List.range 9] }) :=
  (ida_star_equiv_a_star (List.range 9)).1 1 (some []) _ (by decide)

/-- C1: for every start board that is a permutation of `0..8`, the
breadth-first strategy runs to completion and either returns a move
history whose length is realized by a path of blank moves from the start
board to the goal board and is minimal among all such path lengths —
BFS's first found solution is a shortest path — or reports frontier
exhaustion, in which case no path to the goal exists at all (so on every
solvable board, where the goal is reachable, the returned history length
equals the minimum number of moves). -/
theorem bfs_first_solution_shortest (b : Board)
    (hperm : b.Perm (List.range (WIDTH ^ 2))) :
    ∃ fuel c, (∃ h, bfsRun fuel (bfsInit b) = some (some h, c) ∧
        Reaches b goalBoard h.length ∧ (∀ k, Reaches b goalBoard k → h.length ≤ k)) ∨
      (bfsRun fuel (bfsInit b) = some (none, c) ∧ ∀ m, ¬ Reaches b goalBoard m) := by
  have hperm9 : b.Perm (List.range 9) := hperm
  have hinv := bfsInv_init hperm9
  obtain ⟨fuel, r, c2, hrun⟩ :=
    bfsRun_term (bfsMeasure (bfsInit b) b) (bfsInit b) hinv (le_refl _)
  refine ⟨fuel, c2, ?_⟩
  rcases r with _ | h
  · right
    refine ⟨hrun, ?_⟩
    by_cases hsolv : (initState b).solved = true
    · exfalso
      rcases fuel with _ | f
      · rw [bfsRun] at hrun
        exact absurd hrun (by simp)
      · rw [bfsRun] at hrun
        rcases hstep : bfsStep (bfsInit b) with c' | ⟨r', c'⟩ <;> rw [hstep] at hrun <;>
          dsimp only at hrun
        · rcases bfsStep_eq_cont hstep with ⟨state, fr2, hf2, hns2, _⟩
          have h3 : state :: fr2 = [initState b] := hf2.symm
          injection h3 with h31 h32
          rw [h31] at hns2
          rw [hns2] at hsolv
          exact absurd hsolv (by simp)
        · rcases bfsStep_eq_done hstep with ⟨hfr, hrr, _⟩ | ⟨state, fr2, hf2, hs2, hrr, _⟩
          · exact absurd hfr (by simp [bfsInit])
          · injection hrun with h1
            injection h1 with hr _
            rw [hrr] at hr
            exact absurd hr (by simp)
    · have hnsol : ∀ q ∈ (bfsInit b).explored, q.solved = false := by
        intro q hq
        have h1 : q = initState b := by simpa [bfsInit] using hq
        rw [h1]
        rcases hsv : (initState b).solved with _ | _
        · rfl
        · exact absurd hsv hsolv
      exact bfsRun_exhaust fuel (bfsInit b) c2 hinv hnsol hrun
  · left
    obtain ⟨hsound, hmin⟩ := bfsRun_sound fuel _ h c2 hinv hrun
    exact ⟨h, hrun, hsound, hmin⟩

/-- Witness for C1 at the already-solved board: BFS returns a history
realizing the graph distance 0 and minimal among all path lengths. -/
theorem bfs_first_solution_shortest_witness :
    ∃ fuel c, (∃ h, bfsRun fuel (bfsInit goalBoard) = some (some h, c) ∧
        Reaches goalBoard goalBoard h.length ∧
        (∀ k, Reaches goalBoard goalBoard k → h.length ≤ k)) ∨
      (bfsRun fuel (bfsInit goalBoard) = some (none, c) ∧
        ∀ m, ¬ Reaches goalBoard goalBoard m) :=
  bfs_first_solution_shortest goalBoard (List.Perm.refl _)

/-- C9: for every start board that is a permutation of `0..WIDTH^2-1`,
each of the four strategies terminates — there is enough fuel for the
step machine to run to completion and return either a solution history or
frontier exhaustion (`none`).  The duplicate suppression bounds the
explored set by the number of permutation boards, which bounds the work;
in particular `ida_star`'s recursive deepening (re-entering with
`limit + 1`) cannot recurse forever, since `a_star` terminates and
`ida_star` simulates it. -/
theorem all_strategies_terminate (b : Board)
    (hperm : b.Perm (List.range (WIDTH ^ 2))) :
    (∃ fuel r c, bfsRun fuel (bfsInit b) = some (r, c)) ∧
    (∃ fuel r c, dfsRun fuel (dfsInit b) = some (r, c)) ∧
    (∃ fuel r c, astarRun fuel (astarInit b) = some (r, c)) ∧
    (∃ fuel r c, idaRun fuel (astarInit b) 0 = some (r, c)) := by
  have hperm9 : b.Perm (List.range 9) := hperm
  refine ⟨?_, ?_, ?_, ?_⟩
  · exact bfsRun_term (bfsMeasure (bfsInit b) b) (bfsInit b) (bfsInv_init hperm9) (le_refl _)
  · exact dfsRun_term (dfsMeasure (dfsInit b) b) (dfsInit b) (dfsTermInv_init hperm9)
      (le_refl _)
  · exact astarRun_term (astarMeasure (astarInit b) b) (astarInit b)
      (astarTermInv_init hperm9) (le_refl _)
  · obtain ⟨fuel, r, c, hrun⟩ := astarRun_term (astarMeasure (astarInit b) b) (astarInit b)
      (astarTermInv_init hperm9) (le_refl _)
    obtain ⟨fuel2, hida⟩ := astarRun_to_idaRun fuel (astarInit b) r c hrun 0
    exact ⟨fuel2, r, c, hida⟩

/-- Witness for C9 at the already-solved board: all four strategies halt. -/
theorem all_strategies_terminate_witness :
    (∃ fuel r c, bfsRun fuel (bfsInit goalBoard) = some (r, c)) ∧
    (∃ fuel r c, dfsRun fuel (dfsInit goalBoard) = some (r, c)) ∧
    (∃ fuel r c, astarRun fuel (astarInit goalBoard) = some (r, c)) ∧
    (∃ fuel r c, idaRun fuel (astarInit goalBoard) 0 = some (r, c)) :=
  all_strategies_terminate goalBoard (List.Perm.refl _)

end Driver
